import Mathlib

/-!
Verification of the core codec of the `uavcan.rs` repository: the bit-level
deserialization buffer (`src/uavcan/src/deserializer.rs`), the flattened-field
deserializer driver, primitive and dynamic-array deserialization, and the
29-bit transfer-frame identifier composition (`src/uavcan/src/lib.rs` and
`src/uavcan/src/header_macros.rs`).

Machine integers are modelled as `Nat`; the `bit_field` crate's `get_bits` /
`set_bits` operations (used pervasively by the source, both on integers and on
`[u8]` byte arrays, where bit `i` of the array is bit `i % 8` of byte `i / 8`)
are modelled by `getBits` / `setBits` below.  Loops are modelled by structural
recursion on an explicit iteration-count argument (`fuel`); every wrapper
passes an iteration count provably at least as large as the number of
iterations the loop performs, so the fuel-exhaustion branch is never taken.
-/

namespace Uavcan

/-- Bits `[lo, hi)` of `x`, right-aligned: the `bit_field` crate's `get_bits`. -/
def getBits (x lo hi : Nat) : Nat := (x >>> lo) % 2 ^ (hi - lo)

/-- `x` with bits `[lo, hi)` replaced by the low `hi - lo` bits of `v`: the
`bit_field` crate's `set_bits`.  The crate asserts that `v` fits in `hi - lo`
bits; the source always passes values that do, so masking with
`v % 2 ^ (hi - lo)` is equivalent there. -/
def setBits (x lo hi v : Nat) : Nat :=
  x % 2 ^ lo ||| (v % 2 ^ (hi - lo)) <<< lo ||| (x >>> hi) <<< hi

theorem testBit_getBits (x lo hi i : Nat) :
    (getBits x lo hi).testBit i = (decide (i < hi - lo) && x.testBit (lo + i)) := by
  simp [getBits, Nat.testBit_mod_two_pow, Nat.testBit_shiftRight]

theorem getBits_lt (x lo hi : Nat) : getBits x lo hi < 2 ^ (hi - lo) :=
  Nat.mod_lt _ (Nat.pos_pow_of_pos _ (by omega))

theorem testBit_setBits (x lo hi v i : Nat) (h : lo ≤ hi) :
    (setBits x lo hi v).testBit i =
      if i < lo then x.testBit i else if i < hi then v.testBit (i - lo) else x.testBit i := by
  have hrw : hi + (i - hi) = i ∨ i < hi := by omega
  simp only [setBits, Nat.testBit_lor, Nat.testBit_shiftLeft, Nat.testBit_mod_two_pow,
    Nat.testBit_shiftRight]
  by_cases h1 : i < lo
  · simp [h1, show ¬ lo ≤ i by omega, show ¬ hi ≤ i by omega]
  · by_cases h2 : i < hi
    · simp [h1, h2, show lo ≤ i by omega, show ¬ hi ≤ i by omega, show i - lo < hi - lo by omega]
    · have hx : hi + (i - hi) = i := by omega
      simp [h1, h2, show lo ≤ i by omega, show hi ≤ i by omega,
        show ¬ i - lo < hi - lo by omega, hx]

/-- Bits of a sum `a + m * 2 ^ k` with `a < 2 ^ k`: low bits come from `a`,
high bits from `m`. -/
theorem testBit_add_mul_two_pow (a m k i : Nat) (ha : a < 2 ^ k) :
    (a + m * 2 ^ k).testBit i = if i < k then a.testBit i else m.testBit (i - k) := by
  rcases Nat.lt_or_ge i k with h | h
  · rw [if_pos h]
    simp only [Nat.testBit_to_div_mod]
    have hk : (2:Nat) ^ k = 2 ^ (k - i - 1) * 2 * 2 ^ i := by
      rw [Nat.mul_assoc, ← Nat.pow_succ']
      rw [← Nat.pow_add]
      congr 1
      omega
    rw [hk, ← Nat.mul_assoc, Nat.add_mul_div_right _ _ (Nat.pos_pow_of_pos i (by omega)),
      ← Nat.mul_assoc, Nat.add_mul_mod_self_right]
  · rw [if_neg (by omega)]
    simp only [Nat.testBit_to_div_mod]
    have hk : (2:Nat) ^ i = 2 ^ k * 2 ^ (i - k) := by
      rw [← Nat.pow_add]
      congr 1
      omega
    rw [hk, ← Nat.div_div_eq_div_mul, Nat.add_mul_div_right _ _ (Nat.pos_pow_of_pos k (by omega)),
      Nat.div_eq_of_lt ha, Nat.zero_add]

/-- Arithmetic form of `setBits`. -/
theorem setBits_eq (x lo hi v : Nat) (h : lo ≤ hi) :
    setBits x lo hi v = x % 2 ^ lo + (v % 2 ^ (hi - lo)) * 2 ^ lo + x / 2 ^ hi * 2 ^ hi := by
  have hmod : x % 2 ^ lo < 2 ^ lo := Nat.mod_lt _ (Nat.pos_pow_of_pos _ (by omega))
  have hsum : x % 2 ^ lo + (v % 2 ^ (hi - lo)) * 2 ^ lo < 2 ^ hi := by
    have h1 : v % 2 ^ (hi - lo) < 2 ^ (hi - lo) :=
      Nat.mod_lt _ (Nat.pos_pow_of_pos _ (by omega))
    have h4 : (2:Nat) ^ (hi - lo) * 2 ^ lo = 2 ^ hi := by
      rw [← Nat.pow_add]
      congr 1
      omega
    have h2 : (v % 2 ^ (hi - lo) + 1) * 2 ^ lo ≤ 2 ^ (hi - lo) * 2 ^ lo :=
      Nat.mul_le_mul_right _ (by omega)
    have h3 : x % 2 ^ lo + (v % 2 ^ (hi - lo)) * 2 ^ lo < (v % 2 ^ (hi - lo) + 1) * 2 ^ lo := by
      rw [Nat.add_mul, Nat.one_mul]
      omega
    omega
  apply Nat.eq_of_testBit_eq
  intro i
  rw [testBit_setBits _ _ _ _ _ h, testBit_add_mul_two_pow _ _ _ _ hsum,
    testBit_add_mul_two_pow _ _ _ _ hmod]
  by_cases h1 : i < lo
  · simp [h1, show i < hi by omega, Nat.testBit_mod_two_pow]
  · by_cases h2 : i < hi
    · simp [h1, h2, Nat.testBit_mod_two_pow, show i - lo < hi - lo by omega]
    · have hx : hi + (i - hi) = i := by omega
      simp [h1, h2, ← Nat.shiftRight_eq_div_pow, Nat.testBit_shiftRight, hx]

/-- Reading bits `[lo, hi)` of `x` and writing them over `x % 2 ^ lo`
reconstructs `x % 2 ^ hi` (the invariant of the first `pop_bits` loop). -/
theorem setBits_low_merge (x lo hi : Nat) (h : lo ≤ hi) :
    setBits (x % 2 ^ lo) lo hi (getBits x lo hi) = x % 2 ^ hi := by
  apply Nat.eq_of_testBit_eq
  intro i
  rw [testBit_setBits _ _ _ _ _ h]
  by_cases h1 : i < lo
  · simp [h1, Nat.testBit_mod_two_pow, show i < hi by omega]
  · by_cases h2 : i < hi
    · have hx : lo + (i - lo) = i := by omega
      simp [h1, h2, testBit_getBits, Nat.testBit_mod_two_pow,
        show i - lo < hi - lo by omega, hx]
    · simp [h1, h2, Nat.testBit_mod_two_pow, show ¬ i < lo by omega]

/-- `DeserializationBuffer` (src/uavcan/src/deserializer.rs): a 15-byte backing
array, modelled as a single `Nat` whose bit `i` is bit `i % 8` of byte `i / 8`
(the `BitArray` view used by the source), and the `buffer_end_bit` cursor.
Only bits `[0, buffer_end_bit)` are meaningful. -/
structure DeserializationBuffer where
  buffer : Nat
  buffer_end_bit : Nat
deriving DecidableEq, Repr

/-- `DeserializationBuffer::new` -/
def DeserializationBuffer.new : DeserializationBuffer := ⟨0, 0⟩

/-- `DeserializationBuffer::bit_length` -/
def DeserializationBuffer.bit_length (b : DeserializationBuffer) : Nat := b.buffer_end_bit

/-- First loop of `DeserializationBuffer::pop_bits`: collect bits
`[0, bit_len)` of the backing array into the result word, a byte at a time,
with a final partial step.  The loop counter is `current_bit`; `fuel` bounds
the number of iterations (each iteration advances `current_bit` by 8). -/
def popBitsReadAux (buf bit_len : Nat) : Nat → Nat → Nat → Nat
  | 0, bits, _ => bits
  | fuel + 1, bits, current_bit =>
    if current_bit < bit_len then
      if current_bit + 8 < bit_len then
        popBitsReadAux buf bit_len fuel
          (setBits bits current_bit (current_bit + 8) (getBits buf current_bit (current_bit + 8)))
          (current_bit + 8)
      else
        setBits bits current_bit bit_len (getBits buf current_bit bit_len)
    else bits

/-- Second loop of `DeserializationBuffer::pop_bits`: shift the remaining
`end_bit - bit_len` bits of the backing array down to bit 0, a byte at a time,
with a final partial step. -/
def popBitsShiftAux (bit_len end_bit : Nat) : Nat → Nat → Nat → Nat
  | 0, buf, _ => buf
  | fuel + 1, buf, current_bit =>
    if current_bit < end_bit - bit_len then
      if current_bit + 8 < end_bit - bit_len then
        popBitsShiftAux bit_len end_bit fuel
          (setBits buf current_bit (current_bit + 8)
            (getBits buf (current_bit + bit_len) (current_bit + bit_len + 8)))
          (current_bit + 8)
      else
        setBits buf current_bit (end_bit - bit_len)
          (getBits buf (current_bit + bit_len) end_bit)
    else buf

/-- `DeserializationBuffer::pop_bits`.  The Rust function asserts
`bit_len ≤ 64` and `bit_len ≤ buffer_end_bit`; theorems about it carry those
preconditions as hypotheses.  Returns the popped word together with the
updated buffer. -/
def DeserializationBuffer.pop_bits (b : DeserializationBuffer) (bit_len : Nat) :
    Nat × DeserializationBuffer :=
  (popBitsReadAux b.buffer bit_len bit_len 0 0,
   ⟨popBitsShiftAux bit_len b.buffer_end_bit b.buffer_end_bit b.buffer 0,
    b.buffer_end_bit - bit_len⟩)

/-- `DeserializationBuffer::push`: append whole bytes at the tail. -/
def DeserializationBuffer.push (b : DeserializationBuffer) (tail : List Nat) :
    DeserializationBuffer :=
  tail.foldl
    (fun acc byte =>
      ⟨setBits acc.buffer acc.buffer_end_bit (acc.buffer_end_bit + 8) byte,
       acc.buffer_end_bit + 8⟩)
    b

theorem popBitsReadAux_eq (buf n : Nat) :
    ∀ (fuel cb : Nat), cb ≤ n → n ≤ cb + 8 * fuel →
      popBitsReadAux buf n fuel (buf % 2 ^ cb) cb = buf % 2 ^ n := by
  intro fuel
  induction fuel with
  | zero =>
    intro cb h1 h2
    have hcb : cb = n := by omega
    subst hcb
    rfl
  | succ fuel ih =>
    intro cb h1 h2
    by_cases hlt : cb < n
    · by_cases hlt8 : cb + 8 < n
      · show (if cb < n then
            if cb + 8 < n then
              popBitsReadAux buf n fuel
                (setBits (buf % 2 ^ cb) cb (cb + 8) (getBits buf cb (cb + 8))) (cb + 8)
            else setBits (buf % 2 ^ cb) cb n (getBits buf cb n)
          else buf % 2 ^ cb) = buf % 2 ^ n
        rw [if_pos hlt, if_pos hlt8, setBits_low_merge buf cb (cb + 8) (by omega)]
        exact ih (cb + 8) (by omega) (by omega)
      · show (if cb < n then
            if cb + 8 < n then
              popBitsReadAux buf n fuel
                (setBits (buf % 2 ^ cb) cb (cb + 8) (getBits buf cb (cb + 8))) (cb + 8)
            else setBits (buf % 2 ^ cb) cb n (getBits buf cb n)
          else buf % 2 ^ cb) = buf % 2 ^ n
        rw [if_pos hlt, if_neg hlt8, setBits_low_merge buf cb n (by omega)]
    · show (if cb < n then
          if cb + 8 < n then
            popBitsReadAux buf n fuel
              (setBits (buf % 2 ^ cb) cb (cb + 8) (getBits buf cb (cb + 8))) (cb + 8)
          else setBits (buf % 2 ^ cb) cb n (getBits buf cb n)
        else buf % 2 ^ cb) = buf % 2 ^ n
      rw [if_neg hlt]
      have hcb : cb = n := by omega
      rw [hcb]

/-- The second `pop_bits` loop moves every remaining bit `i + n` of the
original backing value `B` to position `i`.  The invariant: positions below
`cb` already hold shifted bits, positions at or above `cb` still hold the
original bits. -/
theorem popBitsShiftAux_spec (B n end_bit : Nat) :
    ∀ (fuel buf cb : Nat), end_bit - n ≤ cb + 8 * fuel → cb ≤ end_bit - n →
      (∀ j, cb ≤ j → buf.testBit j = B.testBit j) →
      (∀ i, i < cb → buf.testBit i = B.testBit (n + i)) →
      ∀ i, i < end_bit - n →
        (popBitsShiftAux n end_bit fuel buf cb).testBit i = B.testBit (n + i) := by
  intro fuel
  induction fuel with
  | zero =>
    intro buf cb h1 h2 hhigh hlow i hi
    exact hlow i (by omega)
  | succ fuel ih =>
    intro buf cb h1 h2 hhigh hlow i hi
    have hunfold : popBitsShiftAux n end_bit (fuel + 1) buf cb =
        if cb < end_bit - n then
          if cb + 8 < end_bit - n then
            popBitsShiftAux n end_bit fuel
              (setBits buf cb (cb + 8) (getBits buf (cb + n) (cb + n + 8))) (cb + 8)
          else setBits buf cb (end_bit - n) (getBits buf (cb + n) end_bit)
        else buf := rfl
    rw [hunfold]
    by_cases hlt : cb < end_bit - n
    · by_cases hlt8 : cb + 8 < end_bit - n
      · rw [if_pos hlt, if_pos hlt8]
        refine ih _ (cb + 8) (by omega) (by omega) ?_ ?_ i hi
        · intro j hj
          rw [testBit_setBits _ _ _ _ _ (by omega), if_neg (by omega), if_neg (by omega)]
          exact hhigh j (by omega)
        · intro k hk
          rw [testBit_setBits _ _ _ _ _ (by omega)]
          by_cases hk1 : k < cb
          · rw [if_pos hk1]
            exact hlow k hk1
          · rw [if_neg hk1, if_pos (by omega), testBit_getBits]
            have hx : cb + n + (k - cb) = n + k := by omega
            have hw : k - cb < cb + n + 8 - (cb + n) := by omega
            rw [hx]
            simp only [decide_eq_true hw, Bool.true_and]
            exact hhigh (n + k) (by omega)
      · rw [if_pos hlt, if_neg hlt8, testBit_setBits _ _ _ _ _ (by omega)]
        by_cases hk1 : i < cb
        · rw [if_pos hk1]
          exact hlow i hk1
        · rw [if_neg hk1, if_pos (by omega), testBit_getBits]
          have hwidth : i - cb < end_bit - (cb + n) := by omega
          have hx : cb + n + (i - cb) = n + i := by omega
          rw [hx]
          simp only [decide_eq_true hwidth, Bool.true_and]
          exact hhigh (n + i) (by omega)
    · rw [if_neg hlt]
      exact hlow i (by omega)

/-- Full specification of `pop_bits` relative to the original buffer state. -/
theorem pop_bits_spec (b : DeserializationBuffer) (n : Nat) (hn : n ≤ b.buffer_end_bit) :
    (b.pop_bits n).1 = b.buffer % 2 ^ n ∧
    (b.pop_bits n).2.buffer_end_bit = b.buffer_end_bit - n ∧
    (∀ i, i < b.buffer_end_bit - n →
      (b.pop_bits n).2.buffer.testBit i = b.buffer.testBit (n + i)) := by
  refine ⟨?_, rfl, ?_⟩
  · show popBitsReadAux b.buffer n n 0 0 = b.buffer % 2 ^ n
    have h := popBitsReadAux_eq b.buffer n n 0 (by omega) (by omega)
    simpa [Nat.mod_one] using h
  · intro i hi
    exact popBitsShiftAux_spec b.buffer n b.buffer_end_bit b.buffer_end_bit b.buffer 0
      (by omega) (by omega) (fun j _ => rfl) (fun k hk => absurd hk (by omega)) i hi

/-- C3: for every buffer state and every `n` with `n ≤ 64` and
`n ≤ bit_length()`, `pop_bits(n)` returns a word whose low `n` bits are the
buffer's first `n` bits (bit 0 of the buffer in bit 0 of the result,
right-aligned, upper bits zero); afterwards `bit_length()` has decreased by
exactly `n` and each remaining bit `i` of the buffer equals the former bit
`i + n`. -/
theorem claim_C3 (b : DeserializationBuffer) (n : Nat) (h64 : n ≤ 64)
    (hn : n ≤ b.bit_length) :
    (b.pop_bits n).1 = b.buffer % 2 ^ n ∧
    (∀ i, i < n → ((b.pop_bits n).1).testBit i = b.buffer.testBit i) ∧
    (∀ i, n ≤ i → ((b.pop_bits n).1).testBit i = false) ∧
    (b.pop_bits n).2.bit_length = b.bit_length - n ∧
    (∀ i, i < b.bit_length - n →
      (b.pop_bits n).2.buffer.testBit i = b.buffer.testBit (n + i)) := by
  obtain ⟨hval, hend, hshift⟩ := pop_bits_spec b n hn
  refine ⟨hval, ?_, ?_, hend, hshift⟩
  · intro i hi
    rw [hval, Nat.testBit_mod_two_pow]
    simp [hi]
  · intro i hi
    have hlt : (b.pop_bits n).1 < 2 ^ i := by
      rw [hval]
      calc b.buffer % 2 ^ n < 2 ^ n := Nat.mod_lt _ (Nat.pos_pow_of_pos _ (by omega))
        _ ≤ 2 ^ i := Nat.pow_le_pow_right (by omega) hi
    exact Nat.testBit_lt_two_pow hlt

/-- Witness for C3 at a concrete buffer (24 valid bits, popping 10). -/
theorem claim_C3_witness :
    (10 ≤ 64 ∧ 10 ≤ (⟨0x123456, 24⟩ : DeserializationBuffer).bit_length) ∧
    (((⟨0x123456, 24⟩ : DeserializationBuffer).pop_bits 10).1 = 0x123456 % 2 ^ 10 ∧
     (∀ i, i < 10 → (((⟨0x123456, 24⟩ : DeserializationBuffer).pop_bits 10).1).testBit i
        = (0x123456 : Nat).testBit i) ∧
     (∀ i, 10 ≤ i → (((⟨0x123456, 24⟩ : DeserializationBuffer).pop_bits 10).1).testBit i
        = false) ∧
     ((⟨0x123456, 24⟩ : DeserializationBuffer).pop_bits 10).2.bit_length
        = (⟨0x123456, 24⟩ : DeserializationBuffer).bit_length - 10 ∧
     (∀ i, i < (⟨0x123456, 24⟩ : DeserializationBuffer).bit_length - 10 →
       ((⟨0x123456, 24⟩ : DeserializationBuffer).pop_bits 10).2.buffer.testBit i
         = (0x123456 : Nat).testBit (10 + i))) :=
  ⟨⟨by decide, by decide⟩, claim_C3 ⟨0x123456, 24⟩ 10 (by decide) (by decide)⟩

/-! ## Transfer-frame identifier composition

`Frame::from_message` / `from_anonymous_message` / `from_request` /
`from_response` (src/uavcan/src/lib.rs) and the `id()` / `from_id()` pairs
generated by `message_frame_header!`, `anonymous_frame_header!` and
`service_frame_header!` (src/uavcan/src/header_macros.rs).  Each is the exact
sequence of `set_bits` / `set_bit` calls of the source; `set_bit(i, false)` is
`set_bits(i..i+1, 0)` and `set_bit(i, true)` is `set_bits(i..i+1, 1)`.
`TYPE_ID` (a per-type constant produced by the macro instantiation, also read
back through the missing `type_id()` trait accessor) is a parameter here.
`from_id`'s `Err(())` is modelled as `none`. -/

/-- `Frame::from_message` identifier composition. -/
def fromMessageId (type_id priority source_node : Nat) : Nat :=
  setBits (setBits (setBits (setBits 0 0 7 source_node) 7 8 0) 8 24 type_id) 24 29 priority

/-- `Frame::from_anonymous_message` identifier composition. -/
def fromAnonymousMessageId (type_id priority discriminator : Nat) : Nat :=
  setBits (setBits (setBits (setBits (setBits 0 0 7 0) 7 8 0) 8 10 type_id)
    10 24 discriminator) 24 29 priority

/-- `Frame::from_request` (and `from_response`) identifier composition. -/
def fromRequestId (type_id priority source_node destination_node : Nat) : Nat :=
  setBits (setBits (setBits (setBits (setBits (setBits 0 0 7 source_node) 7 8 0)
    8 15 destination_node) 15 16 1) 16 24 type_id) 24 29 priority

/-- `message_frame_header!`'s `id()`. -/
def messageHeaderId (TYPE_ID priority source_node : Nat) : Nat :=
  setBits (setBits (setBits (setBits 0 0 7 source_node) 7 8 0) 8 24 TYPE_ID) 24 29 priority

/-- `message_frame_header!`'s `from_id()`: `some (priority, source_node)` on
success. -/
def messageHeaderFromId (TYPE_ID id : Nat) : Option (Nat × Nat) :=
  if getBits id 8 24 ≠ TYPE_ID then none
  else some (getBits id 24 29, getBits id 0 7)

/-- `anonymous_frame_header!`'s `id()`. -/
def anonymousHeaderId (TYPE_ID priority discriminator : Nat) : Nat :=
  setBits (setBits (setBits (setBits (setBits 0 0 7 0) 7 8 0) 8 10 TYPE_ID)
    10 24 discriminator) 24 29 priority

/-- `anonymous_frame_header!`'s `from_id()`: `some (priority, discriminator)`
on success.  Note that the success test compares the full 16-bit field
`id.get_bits(8..24)` with the (2-bit) `TYPE_ID`. -/
def anonymousHeaderFromId (TYPE_ID id : Nat) : Option (Nat × Nat) :=
  if getBits id 8 24 ≠ TYPE_ID then none
  else some (getBits id 24 29, getBits id 10 24)

/-- `service_frame_header!`'s `id()`.  The generated method reads only
`source_node`, `TYPE_ID` (written to bits 8..24) and `priority`; the
`request_not_response` and `destination_node` fields of the header are not
encoded. -/
def serviceHeaderId (TYPE_ID priority : Nat) (request_not_response : Bool)
    (destination_node source_node : Nat) : Nat :=
  setBits (setBits (setBits (setBits 0 0 7 source_node) 7 8 0) 8 24 TYPE_ID) 24 29 priority

/-- C7: `Frame::from_message` composes the 29-bit message identifier as
source_node in bits 0..7, bit 7 clear, type_id in bits 8..24, priority in bits
24..29; in particular, for priority = 16, type_id = 341, source_node = 42 the
identifier equals `(16<<24) ||| (341<<8) ||| 42 = 0x1001552A`. -/
theorem claim_C7 (priority type_id source_node : Nat)
    (hp : priority < 32) (ht : type_id < 65536) (hs : source_node < 128) :
    fromMessageId type_id priority source_node
      = source_node + type_id * 2 ^ 8 + priority * 2 ^ 24 ∧
    getBits (fromMessageId type_id priority source_node) 0 7 = source_node ∧
    (fromMessageId type_id priority source_node).testBit 7 = false ∧
    getBits (fromMessageId type_id priority source_node) 8 24 = type_id ∧
    getBits (fromMessageId type_id priority source_node) 24 29 = priority ∧
    fromMessageId 341 16 42 = 0x1001552A := by
  have harith : fromMessageId type_id priority source_node
      = source_node + type_id * 2 ^ 8 + priority * 2 ^ 24 := by
    rw [fromMessageId, setBits_eq _ 24 29 _ (by omega), setBits_eq _ 8 24 _ (by omega),
      setBits_eq _ 7 8 _ (by omega), setBits_eq _ 0 7 _ (by omega)]
    omega
  refine ⟨harith, ?_, ?_, ?_, ?_, by decide⟩
  · rw [harith]
    simp only [getBits, Nat.shiftRight_eq_div_pow]
    omega
  · rw [harith]
    simp only [Nat.testBit_to_div_mod, decide_eq_false_iff_not]
    omega
  · rw [harith]
    simp only [getBits, Nat.shiftRight_eq_div_pow]
    omega
  · rw [harith]
    simp only [getBits, Nat.shiftRight_eq_div_pow]
    omega

/-- Witness for C7 at priority = 16, type_id = 341, source_node = 42. -/
theorem claim_C7_witness :
    (16 < 32 ∧ 341 < 65536 ∧ 42 < 128) ∧
    (fromMessageId 341 16 42 = 42 + 341 * 2 ^ 8 + 16 * 2 ^ 24 ∧
     getBits (fromMessageId 341 16 42) 0 7 = 42 ∧
     (fromMessageId 341 16 42).testBit 7 = false ∧
     getBits (fromMessageId 341 16 42) 8 24 = 341 ∧
     getBits (fromMessageId 341 16 42) 24 29 = 16 ∧
     fromMessageId 341 16 42 = 0x1001552A) :=
  ⟨⟨by decide, by decide, by decide⟩, claim_C7 16 341 42 (by decide) (by decide) (by decide)⟩

/-- C8 counterexample: for priority = 0, type_id = 1, source_node = 1,
destination_node = 2, request = true, the `id()` generated by
`service_frame_header!` yields `1 ||| (1 << 8) = 0x101`, not the claimed
layout value 0x018201: the macro's `id()` does not produce the
`Frame::from_request` layout. -/
theorem claim_C8_counterexample :
    serviceHeaderId 1 0 true 2 1 ≠ 0x018201 ∧ serviceHeaderId 1 0 true 2 1 = 0x101 :=
  ⟨by decide, by decide⟩

/-- C8 (amended): `Frame::from_request` places source_node at bits 0..7 (bit 7
clear), destination_node at bits 8..15, the service flag 1 at bit 15, type_id
at bits 16..24 and priority at bits 24..29, so for priority = 0, type_id = 1,
source_node = 1, destination_node = 2 the identifier is
`(1<<16) ||| (1<<15) ||| (2<<8) ||| 1 = 0x018201`; the `id()` generated by
`service_frame_header!`, however, writes TYPE_ID to bits 8..24 and encodes
neither destination_node nor the service flag. -/
theorem claim_C8 (priority type_id source_node destination_node : Nat) (req : Bool)
    (hp : priority < 32) (ht : type_id < 256) (hs : source_node < 128)
    (hd : destination_node < 128) :
    fromRequestId type_id priority source_node destination_node
      = source_node + destination_node * 2 ^ 8 + 2 ^ 15 + type_id * 2 ^ 16
        + priority * 2 ^ 24 ∧
    getBits (fromRequestId type_id priority source_node destination_node) 0 7
      = source_node ∧
    (fromRequestId type_id priority source_node destination_node).testBit 7 = false ∧
    getBits (fromRequestId type_id priority source_node destination_node) 8 15
      = destination_node ∧
    (fromRequestId type_id priority source_node destination_node).testBit 15 = true ∧
    getBits (fromRequestId type_id priority source_node destination_node) 16 24
      = type_id ∧
    getBits (fromRequestId type_id priority source_node destination_node) 24 29
      = priority ∧
    fromRequestId 1 0 1 2 = 0x018201 ∧
    serviceHeaderId type_id priority req destination_node source_node
      = source_node + type_id * 2 ^ 8 + priority * 2 ^ 24 := by
  have harith : fromRequestId type_id priority source_node destination_node
      = source_node + destination_node * 2 ^ 8 + 2 ^ 15 + type_id * 2 ^ 16
        + priority * 2 ^ 24 := by
    rw [fromRequestId, setBits_eq _ 24 29 _ (by omega), setBits_eq _ 16 24 _ (by omega),
      setBits_eq _ 15 16 _ (by omega), setBits_eq _ 8 15 _ (by omega),
      setBits_eq _ 7 8 _ (by omega), setBits_eq _ 0 7 _ (by omega)]
    omega
  have hservice : serviceHeaderId type_id priority req destination_node source_node
      = source_node + type_id * 2 ^ 8 + priority * 2 ^ 24 := by
    rw [serviceHeaderId, setBits_eq _ 24 29 _ (by omega), setBits_eq _ 8 24 _ (by omega),
      setBits_eq _ 7 8 _ (by omega), setBits_eq _ 0 7 _ (by omega)]
    omega
  refine ⟨harith, ?_, ?_, ?_, ?_, ?_, ?_, by decide, hservice⟩
  · rw [harith]
    simp only [getBits, Nat.shiftRight_eq_div_pow]
    omega
  · rw [harith]
    simp only [Nat.testBit_to_div_mod, decide_eq_false_iff_not]
    omega
  · rw [harith]
    simp only [getBits, Nat.shiftRight_eq_div_pow]
    omega
  · rw [harith]
    simp only [Nat.testBit_to_div_mod, decide_eq_true_eq]
    omega
  · rw [harith]
    simp only [getBits, Nat.shiftRight_eq_div_pow]
    omega
  · rw [harith]
    simp only [getBits, Nat.shiftRight_eq_div_pow]
    omega

/-- Witness for C8 at priority = 0, type_id = 1, source_node = 1,
destination_node = 2, request = true. -/
theorem claim_C8_witness :
    (0 < 32 ∧ 1 < 256 ∧ 1 < 128 ∧ 2 < 128) ∧
    (fromRequestId 1 0 1 2 = 1 + 2 * 2 ^ 8 + 2 ^ 15 + 1 * 2 ^ 16 + 0 * 2 ^ 24 ∧
     getBits (fromRequestId 1 0 1 2) 0 7 = 1 ∧
     (fromRequestId 1 0 1 2).testBit 7 = false ∧
     getBits (fromRequestId 1 0 1 2) 8 15 = 2 ∧
     (fromRequestId 1 0 1 2).testBit 15 = true ∧
     getBits (fromRequestId 1 0 1 2) 16 24 = 1 ∧
     getBits (fromRequestId 1 0 1 2) 24 29 = 0 ∧
     fromRequestId 1 0 1 2 = 0x018201 ∧
     serviceHeaderId 1 0 true 2 1 = 1 + 1 * 2 ^ 8 + 0 * 2 ^ 24) :=
  ⟨⟨by decide, by decide, by decide, by decide⟩,
   claim_C8 0 1 1 2 true (by decide) (by decide) (by decide) (by decide)⟩

/-- C2 (code-bug exhibit): the valid anonymous header with TYPE_ID = 1,
priority = 0, discriminator = 1 has `id() = 0x500`, but `from_id(0x500)`
returns `Err(())` (modelled `none`) instead of the claimed `Ok(h)`: the
generated `from_id` compares the full 16-bit field `id.get_bits(8..24) = 5`
with the 2-bit TYPE_ID = 1.  Success would in fact force the decoded
discriminator `id.get_bits(10..24)` to equal 0, so the round-trip of the claim
fails for every nonzero discriminator. -/
theorem claim_C2 :
    anonymousHeaderId 1 0 1 = 0x500 ∧
    anonymousHeaderFromId 1 (anonymousHeaderId 1 0 1) = none :=
  ⟨by decide, by decide⟩

/-! ## Primitive-slot and length-field deserialization -/

/-- `DeserializationResult` (src/uavcan/src/deserializer.rs). -/
inductive DeserializationResult where
  | finished : Nat → DeserializationResult
  | bufferInsufficient : Nat → DeserializationResult
deriving DecidableEq, Repr

/-- The `Deserialize` impl generated by `impl_deserialize_for_primitive_type!`
(`Uint2` .. `Uint32`, `Float16`): `bit_len` is the compile-time
`Self::bit_length()` of the type and `value` its stored payload.  Returns the
`DeserializationResult` together with the updated stored value and buffer. -/
def primitiveDeserialize (bit_len value start_bit : Nat)
    (buffer : DeserializationBuffer) :
    DeserializationResult × Nat × DeserializationBuffer :=
  if buffer.bit_length + start_bit < bit_len then
    (.bufferInsufficient 0, value, buffer)
  else
    (.finished bit_len,
     setBits value start_bit bit_len (buffer.pop_bits (bit_len - start_bit)).1,
     (buffer.pop_bits (bit_len - start_bit)).2)

/-- `DynamicArrayLength::deserialize`: identical control flow, writing the
popped bits into `current_length` (the field's width is `self.bit_length`,
here `bit_len`). -/
def dynamicArrayLengthDeserialize (bit_len current_length start_bit : Nat)
    (buffer : DeserializationBuffer) :
    DeserializationResult × Nat × DeserializationBuffer :=
  if buffer.bit_length + start_bit < bit_len then
    (.bufferInsufficient 0, current_length, buffer)
  else
    (.finished bit_len,
     setBits current_length start_bit bit_len (buffer.pop_bits (bit_len - start_bit)).1,
     (buffer.pop_bits (bit_len - start_bit)).2)

/-- C4 counterexample: a `Uint2` slot (`bit_length = 2`) resumed at
`start_bit = 1` against a buffer holding 1 bit (enough for the remaining
`2 - 1 = 1` bit) returns `Finished(2)` — `Self::bit_length()` — not the
claimed `Finished(bit_length − s) = Finished(1)`. -/
theorem claim_C4_counterexample :
    (primitiveDeserialize 2 0 1 ⟨1, 1⟩).1 ≠ .finished (2 - 1) ∧
    (primitiveDeserialize 2 0 1 ⟨1, 1⟩).1 = .finished 2 :=
  ⟨by decide, by decide⟩

/-- C4 (amended): for every primitive slot and every start bit
`s < bit_length`, `deserialize(s, buffer)` returns `Finished(bit_length())` —
the slot's full bit length, not the `bit_length − s` bits actually consumed —
when the buffer holds at least `bit_length − s` bits, and consumes exactly
`bit_length − s` bits from the buffer; otherwise it returns
`BufferInsufficient(0)` having consumed nothing.  The same rule applies to
`DynamicArrayLength::deserialize`. -/
theorem claim_C4 (bit_len value start_bit current_length : Nat)
    (buffer : DeserializationBuffer) (hs : start_bit < bit_len) :
    (bit_len - start_bit ≤ buffer.bit_length →
      (primitiveDeserialize bit_len value start_bit buffer).1 = .finished bit_len ∧
      (primitiveDeserialize bit_len value start_bit buffer).2.2.bit_length
        = buffer.bit_length - (bit_len - start_bit) ∧
      (dynamicArrayLengthDeserialize bit_len current_length start_bit buffer).1
        = .finished bit_len ∧
      (dynamicArrayLengthDeserialize bit_len current_length start_bit buffer).2.2.bit_length
        = buffer.bit_length - (bit_len - start_bit)) ∧
    (buffer.bit_length < bit_len - start_bit →
      (primitiveDeserialize bit_len value start_bit buffer).1 = .bufferInsufficient 0 ∧
      (primitiveDeserialize bit_len value start_bit buffer).2 = (value, buffer) ∧
      (dynamicArrayLengthDeserialize bit_len current_length start_bit buffer).1
        = .bufferInsufficient 0 ∧
      (dynamicArrayLengthDeserialize bit_len current_length start_bit buffer).2
        = (current_length, buffer)) := by
  have hb : buffer.bit_length = buffer.buffer_end_bit := rfl
  constructor
  · intro h
    have hc : ¬ (buffer.buffer_end_bit + start_bit < bit_len) := by omega
    refine ⟨?_, ?_, ?_, ?_⟩ <;>
      simp [primitiveDeserialize, dynamicArrayLengthDeserialize,
        DeserializationBuffer.bit_length, DeserializationBuffer.pop_bits, hc]
  · intro h
    have hc : buffer.buffer_end_bit + start_bit < bit_len := by omega
    refine ⟨?_, ?_, ?_, ?_⟩ <;>
      simp [primitiveDeserialize, dynamicArrayLengthDeserialize,
        DeserializationBuffer.bit_length, hc]

/-- Witness for C4 (amended) at the counterexample's instance. -/
theorem claim_C4_witness :
    (1 < 2) ∧
    ((2 - 1 ≤ (⟨1, 1⟩ : DeserializationBuffer).bit_length →
      (primitiveDeserialize 2 0 1 ⟨1, 1⟩).1 = .finished 2 ∧
      (primitiveDeserialize 2 0 1 ⟨1, 1⟩).2.2.bit_length
        = (⟨1, 1⟩ : DeserializationBuffer).bit_length - (2 - 1) ∧
      (dynamicArrayLengthDeserialize 2 0 1 ⟨1, 1⟩).1 = .finished 2 ∧
      (dynamicArrayLengthDeserialize 2 0 1 ⟨1, 1⟩).2.2.bit_length
        = (⟨1, 1⟩ : DeserializationBuffer).bit_length - (2 - 1)) ∧
    ((⟨1, 1⟩ : DeserializationBuffer).bit_length < 2 - 1 →
      (primitiveDeserialize 2 0 1 ⟨1, 1⟩).1 = .bufferInsufficient 0 ∧
      (primitiveDeserialize 2 0 1 ⟨1, 1⟩).2 = (0, ⟨1, 1⟩) ∧
      (dynamicArrayLengthDeserialize 2 0 1 ⟨1, 1⟩).1 = .bufferInsufficient 0 ∧
      (dynamicArrayLengthDeserialize 2 0 1 ⟨1, 1⟩).2 = (0, ⟨1, 1⟩))) :=
  ⟨by decide, claim_C4 2 0 1 0 ⟨1, 1⟩ (by decide)⟩

/-- C10: primitive-slot (and length-field) deserialization is all-or-nothing:
whenever it returns `BufferInsufficient(k)`, then `k = 0` and the stored
value, the buffer contents and `bit_length()` are all unchanged. -/
theorem claim_C10 (bit_len value start_bit current_length k : Nat)
    (buffer : DeserializationBuffer)
    (hp : (primitiveDeserialize bit_len value start_bit buffer).1
      = .bufferInsufficient k) :
    k = 0 ∧
    (primitiveDeserialize bit_len value start_bit buffer).2.1 = value ∧
    (primitiveDeserialize bit_len value start_bit buffer).2.2 = buffer ∧
    (primitiveDeserialize bit_len value start_bit buffer).2.2.bit_length
      = buffer.bit_length ∧
    (∀ k2, (dynamicArrayLengthDeserialize bit_len current_length start_bit buffer).1
        = .bufferInsufficient k2 →
      k2 = 0 ∧
      (dynamicArrayLengthDeserialize bit_len current_length start_bit buffer).2.1
        = current_length ∧
      (dynamicArrayLengthDeserialize bit_len current_length start_bit buffer).2.2
        = buffer) := by
  by_cases hc : buffer.bit_length + start_bit < bit_len
  · have hp' : primitiveDeserialize bit_len value start_bit buffer
        = (.bufferInsufficient 0, value, buffer) := by
      simp [primitiveDeserialize, hc]
    have hd : dynamicArrayLengthDeserialize bit_len current_length start_bit buffer
        = (.bufferInsufficient 0, current_length, buffer) := by
      simp [dynamicArrayLengthDeserialize, hc]
    rw [hp'] at hp
    injection hp with hk0
    refine ⟨hk0.symm, by rw [hp'], by rw [hp'], by rw [hp'], ?_⟩
    intro k2 hk2
    rw [hd] at hk2
    injection hk2 with hk2'
    exact ⟨hk2'.symm, by rw [hd], by rw [hd]⟩
  · simp [primitiveDeserialize, hc] at hp

/-- Decomposition used by several proofs: a value assembled from a low part
below `lo`, a middle part and the bits of `x` at or above `hi` stays below
`2 ^ hi` when the high part vanishes. -/
theorem mod_add_mul_lt (x v lo hi : Nat) (h : lo ≤ hi) :
    x % 2 ^ lo + (v % 2 ^ (hi - lo)) * 2 ^ lo < 2 ^ hi := by
  have hmod : x % 2 ^ lo < 2 ^ lo := Nat.mod_lt _ (Nat.pos_pow_of_pos _ (by omega))
  have h1 : v % 2 ^ (hi - lo) < 2 ^ (hi - lo) :=
    Nat.mod_lt _ (Nat.pos_pow_of_pos _ (by omega))
  have h4 : (2:Nat) ^ (hi - lo) * 2 ^ lo = 2 ^ hi := by
    rw [← Nat.pow_add]
    congr 1
    omega
  have h2 : (v % 2 ^ (hi - lo) + 1) * 2 ^ lo ≤ 2 ^ (hi - lo) * 2 ^ lo :=
    Nat.mul_le_mul_right _ (by omega)
  have h3 : x % 2 ^ lo + (v % 2 ^ (hi - lo)) * 2 ^ lo < (v % 2 ^ (hi - lo) + 1) * 2 ^ lo := by
    rw [Nat.add_mul, Nat.one_mul]
    omega
  omega

/-- `setBits` keeps a value that fits in `hi` bits inside `hi` bits. -/
theorem setBits_lt (x lo hi v : Nat) (h : lo ≤ hi) (hx : x < 2 ^ hi) :
    setBits x lo hi v < 2 ^ hi := by
  rw [setBits_eq _ _ _ _ h, Nat.div_eq_of_lt hx, Nat.zero_mul, Nat.add_zero]
  exact mod_add_mul_lt x v lo hi h

/-- Writing all bits `[0, hi)` of a value that fits in `hi` bits replaces it
by the low `hi` bits of the written word. -/
theorem setBits_zero_full (x hi v : Nat) (hx : x < 2 ^ hi) :
    setBits x 0 hi v = v % 2 ^ hi := by
  rw [setBits_eq _ _ _ _ (Nat.zero_le hi), Nat.div_eq_of_lt hx, Nat.zero_mul, Nat.add_zero]
  simp [Nat.mod_one]

theorem getBits_zero (x hi : Nat) : getBits x 0 hi = x % 2 ^ hi := by
  simp [getBits]

/-- Witness for C10: a `Uint2` slot against a buffer holding a single bit. -/
theorem claim_C10_witness :
    (primitiveDeserialize 2 0 0 ⟨0, 1⟩).1 = .bufferInsufficient 0 ∧
    (0 = 0 ∧
     (primitiveDeserialize 2 0 0 ⟨0, 1⟩).2.1 = 0 ∧
     (primitiveDeserialize 2 0 0 ⟨0, 1⟩).2.2 = ⟨0, 1⟩ ∧
     (primitiveDeserialize 2 0 0 ⟨0, 1⟩).2.2.bit_length
       = (⟨0, 1⟩ : DeserializationBuffer).bit_length ∧
     (∀ k2, (dynamicArrayLengthDeserialize 2 0 0 ⟨0, 1⟩).1 = .bufferInsufficient k2 →
       k2 = 0 ∧
       (dynamicArrayLengthDeserialize 2 0 0 ⟨0, 1⟩).2.1 = 0 ∧
       (dynamicArrayLengthDeserialize 2 0 0 ⟨0, 1⟩).2.2 = ⟨0, 1⟩)) :=
  ⟨by decide, claim_C10 2 0 0 0 0 ⟨0, 1⟩ (by decide)⟩

/-! ## Dynamic-array deserialization

The source under verification contains the `Deserialize` implementation for
the `DynamicArray*` types (`impl_deserialize_for_dynamic_array!` in
src/uavcan/src/deserializer.rs), but the `DynamicArray` types themselves
(storage, `length()`, `Index`, `length_bit_length()`, `element_bit_length()`)
are declared elsewhere in the repository and are not part of the available
source. -/

/-- Modelled from the spec: the dynamic-array data (missing `DynamicArray3` ..
`DynamicArray90` type declarations and their `DynamicArray` trait impl).  Per
spec §3, a dynamic array is parameterised by an element type and a
compile-time capacity `C`, and carries `length_bits = ⌈log₂(C+1)⌉` (here
`length_bit_length`, which is also the `bit_length` of its
`DynamicArrayLength` field), `current_length ∈ 0..=C`, the element bit width
(`element_bit_length`), and storage for `C` elements (`elements`, whose
length is the capacity; `self[i]` indexes into it). -/
structure DynArray where
  length_bit_length : Nat
  current_length : Nat
  element_bit_length : Nat
  elements : List Nat
deriving DecidableEq, Repr

/-- The `for i in start_element..self.length().current_length` loop of
`impl_deserialize_for_dynamic_array!::deserialize`: deserialize `count` whole
elements starting at index `i` (the Rust range runs
`current_length - start_element` times), accumulating `bits_deserialized`. -/
def dynArrayElemLoop (E : Nat) :
    Nat → List Nat → Nat → DeserializationBuffer → Nat →
    DeserializationResult × List Nat × DeserializationBuffer
  | 0, elems, _, buffer, bits => (.finished bits, elems, buffer)
  | count + 1, elems, i, buffer, bits =>
    match primitiveDeserialize E (elems.getD i 0) 0 buffer with
    | (.finished b, v, buffer') =>
      dynArrayElemLoop E count (elems.set i v) (i + 1) buffer' (bits + b)
    | (.bufferInsufficient b, v, buffer') =>
      (.bufferInsufficient (bits + b), elems.set i v, buffer')

/-- `impl_deserialize_for_dynamic_array!::deserialize` after the length step:
compute `start_element` and `start_element_bit`, "first get rid of the odd
bits", then run the whole-element loop. -/
def DynArray.deserializeRest (a : DynArray) (start_bit bits_deserialized : Nat)
    (buffer : DeserializationBuffer) :
    DeserializationResult × DynArray × DeserializationBuffer :=
  let start_element :=
    (start_bit + bits_deserialized - a.length_bit_length) / a.element_bit_length
  let start_element_bit :=
    (start_bit + bits_deserialized - a.length_bit_length) % a.element_bit_length
  if start_element_bit ≠ 0 then
    match primitiveDeserialize a.element_bit_length (a.elements.getD start_element 0)
        start_element_bit buffer with
    | (.finished b, v, buffer') =>
      let r := dynArrayElemLoop a.element_bit_length
          (a.current_length - (start_element + 1))
          (a.elements.set start_element v) (start_element + 1) buffer'
          (bits_deserialized + b)
      (r.1, { a with elements := r.2.1 }, r.2.2)
    | (.bufferInsufficient b, v, buffer') =>
      (.bufferInsufficient (bits_deserialized + b),
       { a with elements := a.elements.set start_element v }, buffer')
  else
    let r := dynArrayElemLoop a.element_bit_length (a.current_length - start_element)
        a.elements start_element buffer bits_deserialized
    (r.1, { a with elements := r.2.1 }, r.2.2)

/-- `impl_deserialize_for_dynamic_array!::deserialize`: deserialize the length
field first when `start_bit` lies inside it (writing `current_length`
directly), then the elements. -/
def DynArray.deserialize (a : DynArray) (start_bit : Nat)
    (buffer : DeserializationBuffer) :
    DeserializationResult × DynArray × DeserializationBuffer :=
  if start_bit < a.length_bit_length then
    match dynamicArrayLengthDeserialize a.length_bit_length a.current_length
        start_bit buffer with
    | (.finished b, len', buffer') =>
      DynArray.deserializeRest { a with current_length := len' } start_bit (0 + b) buffer'
    | (.bufferInsufficient b, len', buffer') =>
      (.bufferInsufficient (0 + b), { a with current_length := len' }, buffer')
  else
    DynArray.deserializeRest a start_bit 0 buffer

theorem getD_set_self {α : Type} (l : List α) (i : Nat) (v d : α) (h : i < l.length) :
    (l.set i v).getD i d = v := by
  simp [List.getD_eq_getElem?_getD, List.getElem?_set_self h]

theorem getD_set_ne {α : Type} (l : List α) (i j : Nat) (v d : α) (h : i ≠ j) :
    (l.set i v).getD j d = l.getD j d := by
  simp [List.getD_eq_getElem?_getD, List.getElem?_set_ne h]

theorem getD_replicate (n i v d : Nat) :
    (List.replicate n v).getD i d = if i < n then v else d := by
  rcases Nat.lt_or_ge i n with h | h
  · simp [List.getD_eq_getElem?_getD, List.getElem?_replicate, h]
  · rw [if_neg (by omega)]
    rw [List.getD_eq_getElem?_getD, List.getElem?_eq_none (by simpa using h)]
    rfl

/-- The buffer `bb` holds exactly the bits `[off, endB)` of an original bit
stream `B`, shifted down to position 0. -/
def BufferSuffix (B endB off : Nat) (bb : DeserializationBuffer) : Prop :=
  bb.buffer_end_bit = endB - off ∧
  ∀ i, i < endB - off → bb.buffer.testBit i = B.testBit (off + i)

/-- Popping `n` bits from a buffer holding the bits of `B` from `off` yields
bits `[off, off + n)` of `B` and leaves a buffer holding the bits from
`off + n`. -/
theorem pop_bits_suffix (B endB off n : Nat) (bb : DeserializationBuffer)
    (hs : BufferSuffix B endB off bb) (hn : n ≤ bb.buffer_end_bit) :
    (bb.pop_bits n).1 = getBits B off (off + n) ∧
    BufferSuffix B endB (off + n) (bb.pop_bits n).2 := by
  obtain ⟨hend, hbits⟩ := hs
  obtain ⟨hval, hend', hshift⟩ := pop_bits_spec bb n hn
  refine ⟨?_, ?_, ?_⟩
  · rw [hval]
    apply Nat.eq_of_testBit_eq
    intro i
    rw [Nat.testBit_mod_two_pow, testBit_getBits]
    rcases Nat.lt_or_ge i n with h | h
    · have hi : i < endB - off := by omega
      simp [h, show i < off + n - off by omega, hbits i hi]
    · simp [show ¬ i < n by omega, show ¬ i < off + n - off by omega]
  · rw [hend', hend]
    omega
  · intro i hi
    have h1 : i < bb.buffer_end_bit - n := by omega
    rw [hshift i h1, hbits (n + i) (by omega)]
    congr 1
    omega

/-- Specification of the whole-element loop: with a buffer holding the bits of
`B` from `off` and enough of them for `count` elements, the loop fills
elements `[i, i + count)` with consecutive `E`-bit groups of `B`, touches no
other element, returns `Finished` having accumulated `count * E` further bits,
and leaves the buffer holding the bits of `B` from `off + count * E`. -/
theorem dynArrayElemLoop_spec (B endB E : Nat) (hE : 0 < E) :
    ∀ (count : Nat) (elems : List Nat) (i : Nat) (bb : DeserializationBuffer)
      (bits off : Nat),
      BufferSuffix B endB off bb →
      off + count * E ≤ endB →
      (∀ v ∈ elems, v < 2 ^ E) →
      i + count ≤ elems.length →
      (dynArrayElemLoop E count elems i bb bits).1 = .finished (bits + count * E) ∧
      (∀ j, j < i ∨ i + count ≤ j →
        (dynArrayElemLoop E count elems i bb bits).2.1.getD j 0 = elems.getD j 0) ∧
      (∀ j, i ≤ j → j < i + count →
        (dynArrayElemLoop E count elems i bb bits).2.1.getD j 0
          = getBits B (off + (j - i) * E) (off + (j - i) * E + E)) ∧
      BufferSuffix B endB (off + count * E)
        (dynArrayElemLoop E count elems i bb bits).2.2 := by
  intro count
  induction count with
  | zero =>
    intro elems i bb bits off hbs hcnt hbound hlen
    refine ⟨by simp [dynArrayElemLoop], ?_, ?_, ?_⟩
    · intro j _
      rfl
    · intro j hj1 hj2
      omega
    · simpa [dynArrayElemLoop] using hbs
  | succ count ih =>
    intro elems i bb bits off hbs hcnt hbound hlen
    have hmul : (count + 1) * E = count * E + E := Nat.succ_mul count E
    have hendbb : bb.buffer_end_bit = endB - off := hbs.1
    have hEle : E ≤ bb.buffer_end_bit := by omega
    have hcond : ¬ (bb.bit_length + 0 < E) := by
      show ¬ (bb.buffer_end_bit + 0 < E)
      omega
    obtain ⟨hpop1, hpop2⟩ := pop_bits_suffix B endB off E bb hbs hEle
    have hgb : getBits B off (off + E) < 2 ^ E := by
      have h := getBits_lt B off (off + E)
      rwa [show off + E - off = E by omega] at h
    have hi : i < elems.length := by omega
    have hvbound : elems.getD i 0 < 2 ^ E := by
      have hgd : elems.getD i 0 = elems[i] := by
        simp [List.getD_eq_getElem?_getD, List.getElem?_eq_getElem hi]
      rw [hgd]
      exact hbound _ (List.getElem_mem hi)
    have hv : setBits (elems.getD i 0) 0 E (bb.pop_bits E).1 = getBits B off (off + E) := by
      rw [setBits_zero_full _ _ _ hvbound, hpop1, Nat.mod_eq_of_lt hgb]
    have hprim : primitiveDeserialize E (elems.getD i 0) 0 bb
        = (.finished E, getBits B off (off + E), (bb.pop_bits E).2) := by
      simp only [primitiveDeserialize, if_neg hcond, Nat.sub_zero, hv]
    have hunfold : dynArrayElemLoop E (count + 1) elems i bb bits
        = dynArrayElemLoop E count (elems.set i (getBits B off (off + E))) (i + 1)
            (bb.pop_bits E).2 (bits + E) := by
      show (match primitiveDeserialize E (elems.getD i 0) 0 bb with
        | (.finished b, v, buffer') =>
          dynArrayElemLoop E count (elems.set i v) (i + 1) buffer' (bits + b)
        | (.bufferInsufficient b, v, buffer') =>
          (.bufferInsufficient (bits + b), elems.set i v, buffer'))
        = dynArrayElemLoop E count (elems.set i (getBits B off (off + E))) (i + 1)
            (bb.pop_bits E).2 (bits + E)
      rw [hprim]
    obtain ⟨ihres, ihuntouched, ihfilled, ihbuf⟩ :=
      ih (elems.set i (getBits B off (off + E))) (i + 1) (bb.pop_bits E).2 (bits + E)
        (off + E) hpop2 (by omega)
        (by
          intro v hv2
          rcases List.mem_or_eq_of_mem_set hv2 with h | h
          · exact hbound v h
          · rw [h]
            exact hgb)
        (by rw [List.length_set]; omega)
    refine ⟨?_, ?_, ?_, ?_⟩
    · rw [hunfold, ihres]
      congr 1
      omega
    · intro j hj
      rw [hunfold, ihuntouched j (by omega), getD_set_ne _ _ _ _ _ (by omega)]
    · intro j hj1 hj2
      rcases Nat.eq_or_lt_of_le hj1 with hji | hji
      · rw [hunfold, ihuntouched j (by omega), ← hji, getD_set_self _ _ _ _ hi,
          show i - i = 0 by omega, Nat.zero_mul, Nat.add_zero]
      · have harith : off + E + (j - (i + 1)) * E = off + (j - i) * E := by
          have h1 : j - i = (j - (i + 1)) + 1 := by omega
          rw [h1, Nat.succ_mul]
          omega
        rw [hunfold, ihfilled j (by omega) (by omega), harith]
    · have hoff : off + E + count * E = off + (count + 1) * E := by
        rw [hmul]
        omega
      rw [hunfold, ← hoff]
      exact ihbuf

/-- C5: (a) for a dynamic array with length-field width `L` and element width
`E`, `deserialize(0, buffer)` on a zeroed array with a buffer holding the full
encoding first sets `current_length` directly from the first `L` bits of the
buffer, then fills each element of index `0..current_length` in order from `E`
consecutive bits each, and returns `Finished` with the total bit count;
(b) when resuming with start bit `s ≥ L`, it continues at element
`(s − L) / E`, bit `(s − L) mod E`: `current_length` and the elements below
that index are untouched, that element receives the buffer's first
`E − (s − L) mod E` bits into its bit range `[(s − L) mod E, E)`, and the
following elements up to `current_length` are filled whole from the
subsequent bits. -/
theorem claim_C5 :
    (∀ (L E C : Nat) (buffer : DeserializationBuffer),
      0 < L → 0 < E → L ≤ 64 → E ≤ 64 →
      getBits buffer.buffer 0 L ≤ C →
      L + getBits buffer.buffer 0 L * E ≤ buffer.bit_length →
      (DynArray.deserialize ⟨L, 0, E, List.replicate C 0⟩ 0 buffer).1
        = .finished (L + getBits buffer.buffer 0 L * E) ∧
      (DynArray.deserialize ⟨L, 0, E, List.replicate C 0⟩ 0 buffer).2.1.current_length
        = getBits buffer.buffer 0 L ∧
      (∀ i, i < getBits buffer.buffer 0 L →
        (DynArray.deserialize ⟨L, 0, E, List.replicate C 0⟩ 0
            buffer).2.1.elements.getD i 0
          = getBits buffer.buffer (L + i * E) (L + i * E + E)) ∧
      (∀ i, getBits buffer.buffer 0 L ≤ i →
        (DynArray.deserialize ⟨L, 0, E, List.replicate C 0⟩ 0
            buffer).2.1.elements.getD i 0 = 0) ∧
      (DynArray.deserialize ⟨L, 0, E, List.replicate C 0⟩ 0 buffer).2.2.bit_length
        = buffer.bit_length - (L + getBits buffer.buffer 0 L * E)) ∧
    (∀ (L len E : Nat) (elems : List Nat) (s : Nat) (buffer : DeserializationBuffer),
      0 < E → L ≤ s → s < L + len * E →
      len ≤ elems.length →
      (∀ v ∈ elems, v < 2 ^ E) →
      L + len * E - s ≤ buffer.bit_length →
      (DynArray.deserialize ⟨L, len, E, elems⟩ s buffer).1
        = .finished ((len - (s - L) / E) * E) ∧
      (DynArray.deserialize ⟨L, len, E, elems⟩ s buffer).2.1.current_length = len ∧
      (∀ j, j < (s - L) / E →
        (DynArray.deserialize ⟨L, len, E, elems⟩ s buffer).2.1.elements.getD j 0
          = elems.getD j 0) ∧
      (DynArray.deserialize ⟨L, len, E, elems⟩ s buffer).2.1.elements.getD
          ((s - L) / E) 0
        = setBits (elems.getD ((s - L) / E) 0) ((s - L) % E) E
            (getBits buffer.buffer 0 (E - (s - L) % E)) ∧
      (∀ j, (s - L) / E < j → j < len →
        (DynArray.deserialize ⟨L, len, E, elems⟩ s buffer).2.1.elements.getD j 0
          = getBits buffer.buffer ((j - (s - L) / E) * E - (s - L) % E)
              ((j - (s - L) / E) * E - (s - L) % E + E)) ∧
      (∀ j, len ≤ j →
        (DynArray.deserialize ⟨L, len, E, elems⟩ s buffer).2.1.elements.getD j 0
          = elems.getD j 0) ∧
      (DynArray.deserialize ⟨L, len, E, elems⟩ s buffer).2.2.bit_length
        = buffer.bit_length - (L + len * E - s)) := by
  constructor
  · intro L E C buffer hL hE hL64 hE64 hcap hsize
    have hbl : buffer.bit_length = buffer.buffer_end_bit := rfl
    have hsuffix0 : BufferSuffix buffer.buffer buffer.buffer_end_bit 0 buffer :=
      ⟨by omega, fun i _ => by rw [Nat.zero_add]⟩
    have hLle : L ≤ buffer.buffer_end_bit := by omega
    obtain ⟨hpopL1, hpopL2⟩ :=
      pop_bits_suffix buffer.buffer buffer.buffer_end_bit 0 L buffer hsuffix0 hLle
    rw [Nat.zero_add] at hpopL1 hpopL2
    have hcond : ¬ (buffer.bit_length + 0 < L) := by omega
    have hsetlen : setBits 0 0 L (buffer.pop_bits L).1 = getBits buffer.buffer 0 L := by
      rw [hpopL1, setBits_zero_full _ _ _ (Nat.pos_pow_of_pos _ (by omega))]
      have hv := getBits_lt buffer.buffer 0 L
      rw [Nat.sub_zero] at hv
      exact Nat.mod_eq_of_lt hv
    have hlendes : dynamicArrayLengthDeserialize L 0 0 buffer
        = (.finished L, getBits buffer.buffer 0 L, (buffer.pop_bits L).2) := by
      simp only [dynamicArrayLengthDeserialize, Nat.sub_zero]
      rw [if_neg hcond, hsetlen]
    have hmain : DynArray.deserialize ⟨L, 0, E, List.replicate C 0⟩ 0 buffer
        = DynArray.deserializeRest ⟨L, getBits buffer.buffer 0 L, E, List.replicate C 0⟩ 0
            (0 + L) (buffer.pop_bits L).2 := by
      simp only [DynArray.deserialize]
      rw [if_pos (show (0:Nat) < (⟨L, 0, E, List.replicate C 0⟩ : DynArray).length_bit_length
        from hL), hlendes]
    have hfull : DynArray.deserialize ⟨L, 0, E, List.replicate C 0⟩ 0 buffer
        = ((dynArrayElemLoop E (getBits buffer.buffer 0 L) (List.replicate C 0) 0
              (buffer.pop_bits L).2 (0 + L)).1,
           ⟨L, getBits buffer.buffer 0 L, E,
            (dynArrayElemLoop E (getBits buffer.buffer 0 L) (List.replicate C 0) 0
              (buffer.pop_bits L).2 (0 + L)).2.1⟩,
           (dynArrayElemLoop E (getBits buffer.buffer 0 L) (List.replicate C 0) 0
              (buffer.pop_bits L).2 (0 + L)).2.2) := by
      rw [hmain]
      simp only [DynArray.deserializeRest]
      rw [show (0:Nat) + (0 + L) - L = 0 from by omega]
      rw [Nat.zero_div, Nat.zero_mod]
      rw [if_neg (show ¬ (0 ≠ 0) from by omega)]
      rw [Nat.sub_zero]
    obtain ⟨lres, luntouched, lfilled, lbuf⟩ :=
      dynArrayElemLoop_spec buffer.buffer buffer.buffer_end_bit E hE
        (getBits buffer.buffer 0 L) (List.replicate C 0) 0 (buffer.pop_bits L).2 (0 + L) L
        hpopL2 (by omega)
        (fun v hv => by
          rw [List.eq_of_mem_replicate hv]
          exact Nat.pos_pow_of_pos _ (by omega))
        (by rw [List.length_replicate]; omega)
    refine ⟨?_, ?_, ?_, ?_, ?_⟩
    · rw [hfull, lres]
      simp [Nat.zero_add]
    · rw [hfull]
    · intro i hi
      rw [hfull]
      show (dynArrayElemLoop E (getBits buffer.buffer 0 L) (List.replicate C 0) 0
          (buffer.pop_bits L).2 (0 + L)).2.1.getD i 0
        = getBits buffer.buffer (L + i * E) (L + i * E + E)
      rw [lfilled i (by omega) (by omega)]
      simp [Nat.sub_zero]
    · intro i hi
      rw [hfull]
      show (dynArrayElemLoop E (getBits buffer.buffer 0 L) (List.replicate C 0) 0
          (buffer.pop_bits L).2 (0 + L)).2.1.getD i 0 = 0
      rw [luntouched i (Or.inr (by omega))]
      simp [getD_replicate]
    · rw [hfull]
      show (dynArrayElemLoop E (getBits buffer.buffer 0 L) (List.replicate C 0) 0
          (buffer.pop_bits L).2 (0 + L)).2.2.buffer_end_bit
        = buffer.bit_length - (L + getBits buffer.buffer 0 L * E)
      exact lbuf.1
  · intro L len E elems s buffer hE hLs hslt hlenle hbound hsize
    have hbl : buffer.bit_length = buffer.buffer_end_bit := rfl
    have hb0lt : (s - L) % E < E := Nat.mod_lt _ hE
    have hdm : E * ((s - L) / E) + (s - L) % E = s - L := Nat.div_add_mod _ _
    have hcm : E * ((s - L) / E) = ((s - L) / E) * E := Nat.mul_comm _ _
    have he0len : (s - L) / E < len := by
      rw [Nat.div_lt_iff_lt_mul hE]
      omega
    have hmul1 : ((s - L) / E) * E ≤ len * E := Nat.mul_le_mul_right _ (by omega)
    have hsm3 : (len - (s - L) / E) * E = len * E - ((s - L) / E) * E := Nat.sub_mul _ _ _
    have hsm : (len - ((s - L) / E + 1)) * E = len * E - ((s - L) / E + 1) * E :=
      Nat.sub_mul _ _ _
    have hsm2 : ((s - L) / E + 1) * E = ((s - L) / E) * E + E := Nat.succ_mul _ _
    have hEbig : E ≤ (len - (s - L) / E) * E := by
      have h1 : 1 * E ≤ (len - (s - L) / E) * E := Nat.mul_le_mul_right _ (by omega)
      simpa using h1
    have he0mem : (s - L) / E < elems.length := by omega
    have he0bound : elems.getD ((s - L) / E) 0 < 2 ^ E := by
      have hgd : elems.getD ((s - L) / E) 0 = elems[(s - L) / E] := by
        simp [List.getD_eq_getElem?_getD, List.getElem?_eq_getElem he0mem]
      rw [hgd]
      exact hbound _ (List.getElem_mem he0mem)
    have hmain : DynArray.deserialize ⟨L, len, E, elems⟩ s buffer
        = DynArray.deserializeRest ⟨L, len, E, elems⟩ s 0 buffer := by
      have hnot : ¬ (s < L) := by omega
      simp only [DynArray.deserialize]
      rw [if_neg (show ¬ (s < (⟨L, len, E, elems⟩ : DynArray).length_bit_length) from hnot)]
    by_cases hb0 : (s - L) % E = 0
    · have hfull0 : DynArray.deserialize ⟨L, len, E, elems⟩ s buffer
          = ((dynArrayElemLoop E (len - (s - L) / E) elems ((s - L) / E) buffer 0).1,
             ⟨L, len, E,
              (dynArrayElemLoop E (len - (s - L) / E) elems ((s - L) / E) buffer 0).2.1⟩,
             (dynArrayElemLoop E (len - (s - L) / E) elems ((s - L) / E) buffer 0).2.2) := by
        rw [hmain]
        simp only [DynArray.deserializeRest, Nat.add_zero]
        rw [if_neg (show ¬ ((s - L) % E ≠ 0) from by omega)]
      obtain ⟨lres, luntouched, lfilled, lbuf⟩ :=
        dynArrayElemLoop_spec buffer.buffer buffer.buffer_end_bit E hE
          (len - (s - L) / E) elems ((s - L) / E) buffer 0 0
          ⟨by omega, fun i _ => by rw [Nat.zero_add]⟩
          (by omega) hbound (by omega)
      have hVeq : setBits (elems.getD ((s - L) / E) 0) ((s - L) % E) E
            (getBits buffer.buffer 0 (E - (s - L) % E))
          = getBits buffer.buffer 0 E := by
        rw [hb0, Nat.sub_zero, setBits_zero_full _ _ _ he0bound]
        have hv := getBits_lt buffer.buffer 0 E
        rw [Nat.sub_zero] at hv
        exact Nat.mod_eq_of_lt hv
      refine ⟨?_, ?_, ?_, ?_, ?_, ?_, ?_⟩
      · rw [hfull0, lres]
        simp [Nat.zero_add]
      · rw [hfull0]
      · intro j hj
        rw [hfull0]
        show (dynArrayElemLoop E (len - (s - L) / E) elems ((s - L) / E) buffer 0).2.1.getD
            j 0 = elems.getD j 0
        exact luntouched j (Or.inl hj)
      · rw [hfull0]
        show (dynArrayElemLoop E (len - (s - L) / E) elems ((s - L) / E) buffer
            0).2.1.getD ((s - L) / E) 0 = _
        rw [lfilled ((s - L) / E) (by omega) (by omega), hVeq]
        simp [Nat.sub_self]
      · intro j hj1 hj2
        rw [hfull0]
        show (dynArrayElemLoop E (len - (s - L) / E) elems ((s - L) / E) buffer 0).2.1.getD
            j 0 = _
        rw [lfilled j (by omega) (by omega), hb0]
        simp [Nat.zero_add, Nat.sub_zero]
      · intro j hj
        rw [hfull0]
        show (dynArrayElemLoop E (len - (s - L) / E) elems ((s - L) / E) buffer 0).2.1.getD
            j 0 = elems.getD j 0
        exact luntouched j (Or.inr (by omega))
      · rw [hfull0]
        show (dynArrayElemLoop E (len - (s - L) / E) elems ((s - L) / E) buffer
            0).2.2.buffer_end_bit = buffer.bit_length - (L + len * E - s)
        rw [lbuf.1]
        omega
    · have hcond : ¬ (buffer.bit_length + (s - L) % E < E) := by omega
      obtain ⟨hpop1, hpop2⟩ := pop_bits_suffix buffer.buffer buffer.buffer_end_bit 0
          (E - (s - L) % E) buffer ⟨by omega, fun i _ => by rw [Nat.zero_add]⟩ (by omega)
      rw [Nat.zero_add] at hpop1 hpop2
      have hprim : primitiveDeserialize E (elems.getD ((s - L) / E) 0) ((s - L) % E) buffer
          = (.finished E,
             setBits (elems.getD ((s - L) / E) 0) ((s - L) % E) E
               (getBits buffer.buffer 0 (E - (s - L) % E)),
             (buffer.pop_bits (E - (s - L) % E)).2) := by
        simp only [primitiveDeserialize]
        rw [if_neg hcond, hpop1]
      have hfull1 : DynArray.deserialize ⟨L, len, E, elems⟩ s buffer
          = ((dynArrayElemLoop E (len - ((s - L) / E + 1))
                (elems.set ((s - L) / E)
                  (setBits (elems.getD ((s - L) / E) 0) ((s - L) % E) E
                    (getBits buffer.buffer 0 (E - (s - L) % E))))
                ((s - L) / E + 1) (buffer.pop_bits (E - (s - L) % E)).2 (0 + E)).1,
             ⟨L, len, E,
              (dynArrayElemLoop E (len - ((s - L) / E + 1))
                (elems.set ((s - L) / E)
                  (setBits (elems.getD ((s - L) / E) 0) ((s - L) % E) E
                    (getBits buffer.buffer 0 (E - (s - L) % E))))
                ((s - L) / E + 1) (buffer.pop_bits (E - (s - L) % E)).2 (0 + E)).2.1⟩,
             (dynArrayElemLoop E (len - ((s - L) / E + 1))
                (elems.set ((s - L) / E)
                  (setBits (elems.getD ((s - L) / E) 0) ((s - L) % E) E
                    (getBits buffer.buffer 0 (E - (s - L) % E))))
                ((s - L) / E + 1) (buffer.pop_bits (E - (s - L) % E)).2 (0 + E)).2.2) := by
        rw [hmain]
        simp only [DynArray.deserializeRest, Nat.add_zero]
        rw [if_pos (show ((s - L) % E ≠ 0) from hb0), hprim]
      obtain ⟨lres, luntouched, lfilled, lbuf⟩ :=
        dynArrayElemLoop_spec buffer.buffer buffer.buffer_end_bit E hE
          (len - ((s - L) / E + 1))
          (elems.set ((s - L) / E)
            (setBits (elems.getD ((s - L) / E) 0) ((s - L) % E) E
              (getBits buffer.buffer 0 (E - (s - L) % E))))
          ((s - L) / E + 1) (buffer.pop_bits (E - (s - L) % E)).2 (0 + E)
          (E - (s - L) % E)
          hpop2 (by omega)
          (by
            intro v hv
            rcases List.mem_or_eq_of_mem_set hv with h | h
            · exact hbound v h
            · rw [h]
              exact setBits_lt _ _ _ _ (by omega) he0bound)
          (by rw [List.length_set]; omega)
      refine ⟨?_, ?_, ?_, ?_, ?_, ?_, ?_⟩
      · rw [hfull1, lres]
        congr 1
        omega
      · rw [hfull1]
      · intro j hj
        rw [hfull1]
        show (dynArrayElemLoop E (len - ((s - L) / E + 1))
            (elems.set ((s - L) / E)
              (setBits (elems.getD ((s - L) / E) 0) ((s - L) % E) E
                (getBits buffer.buffer 0 (E - (s - L) % E))))
            ((s - L) / E + 1) (buffer.pop_bits (E - (s - L) % E)).2 (0 + E)).2.1.getD j 0
          = elems.getD j 0
        rw [luntouched j (Or.inl (by omega)), getD_set_ne _ _ _ _ _ (by omega)]
      · rw [hfull1]
        show (dynArrayElemLoop E (len - ((s - L) / E + 1))
            (elems.set ((s - L) / E)
              (setBits (elems.getD ((s - L) / E) 0) ((s - L) % E) E
                (getBits buffer.buffer 0 (E - (s - L) % E))))
            ((s - L) / E + 1) (buffer.pop_bits (E - (s - L) % E)).2
            (0 + E)).2.1.getD ((s - L) / E) 0 = _
        rw [luntouched ((s - L) / E) (Or.inl (by omega)),
          getD_set_self _ _ _ _ he0mem]
      · intro j hj1 hj2
        have hja : (j - (s - L) / E) * E = (j - ((s - L) / E + 1)) * E + E := by
          rw [show j - (s - L) / E = (j - ((s - L) / E + 1)) + 1 from by omega, Nat.succ_mul]
        have hoff : (E - (s - L) % E) + (j - ((s - L) / E + 1)) * E
            = (j - (s - L) / E) * E - (s - L) % E := by omega
        rw [hfull1]
        show (dynArrayElemLoop E (len - ((s - L) / E + 1))
            (elems.set ((s - L) / E)
              (setBits (elems.getD ((s - L) / E) 0) ((s - L) % E) E
                (getBits buffer.buffer 0 (E - (s - L) % E))))
            ((s - L) / E + 1) (buffer.pop_bits (E - (s - L) % E)).2 (0 + E)).2.1.getD j 0
          = _
        rw [lfilled j (by omega) (by omega), hoff]
      · intro j hj
        rw [hfull1]
        show (dynArrayElemLoop E (len - ((s - L) / E + 1))
            (elems.set ((s - L) / E)
              (setBits (elems.getD ((s - L) / E) 0) ((s - L) % E) E
                (getBits buffer.buffer 0 (E - (s - L) % E))))
            ((s - L) / E + 1) (buffer.pop_bits (E - (s - L) % E)).2 (0 + E)).2.1.getD j 0
          = elems.getD j 0
        rw [luntouched j (Or.inr (by omega)), getD_set_ne _ _ _ _ _ (by omega)]
      · rw [hfull1]
        show (dynArrayElemLoop E (len - ((s - L) / E + 1))
            (elems.set ((s - L) / E)
              (setBits (elems.getD ((s - L) / E) 0) ((s - L) % E) E
                (getBits buffer.buffer 0 (E - (s - L) % E))))
            ((s - L) / E + 1) (buffer.pop_bits (E - (s - L) % E)).2
            (0 + E)).2.2.buffer_end_bit = buffer.bit_length - (L + len * E - s)
        rw [lbuf.1]
        omega


/-- Witness for C5: (a) `DynamicArray3<Uint8>`-style array (L = 2, E = 8,
C = 3) against buffer bytes `[0x2E, 0x36, 0x33]`-equivalent (length 2 then
elements 0xAB, 0xCD); (b) resuming the array `⟨2, 2, 8, [7, 9, 11]⟩` at
s = 14 (element 1, bit 4) with 4 remaining bits. -/
theorem claim_C5_witness :
    ((0 < 2 ∧ 0 < 8 ∧ 2 ≤ 64 ∧ 8 ≤ 64 ∧
      getBits (⟨210606, 18⟩ : DeserializationBuffer).buffer 0 2 ≤ 3 ∧
      2 + getBits (⟨210606, 18⟩ : DeserializationBuffer).buffer 0 2 * 8
        ≤ (⟨210606, 18⟩ : DeserializationBuffer).bit_length) ∧
     ((DynArray.deserialize ⟨2, 0, 8, List.replicate 3 0⟩ 0 ⟨210606, 18⟩).1
        = .finished (2 + getBits (210606 : Nat) 0 2 * 8) ∧
      (DynArray.deserialize ⟨2, 0, 8, List.replicate 3 0⟩ 0 ⟨210606, 18⟩).2.1.current_length
        = getBits (210606 : Nat) 0 2 ∧
      (∀ i, i < getBits (210606 : Nat) 0 2 →
        (DynArray.deserialize ⟨2, 0, 8, List.replicate 3 0⟩ 0 ⟨210606, 18⟩).2.1.elements.getD i 0
          = getBits (210606 : Nat) (2 + i * 8) (2 + i * 8 + 8)) ∧
      (∀ i, getBits (210606 : Nat) 0 2 ≤ i →
        (DynArray.deserialize ⟨2, 0, 8, List.replicate 3 0⟩ 0 ⟨210606, 18⟩).2.1.elements.getD i 0
          = 0) ∧
      (DynArray.deserialize ⟨2, 0, 8, List.replicate 3 0⟩ 0 ⟨210606, 18⟩).2.2.bit_length
        = (⟨210606, 18⟩ : DeserializationBuffer).bit_length - (2 + getBits (210606 : Nat) 0 2 * 8))) ∧
    ((0 < 8 ∧ 2 ≤ 14 ∧ 14 < 2 + 2 * 8 ∧ 2 ≤ ([7, 9, 11] : List Nat).length ∧
      (∀ v ∈ ([7, 9, 11] : List Nat), v < 2 ^ 8) ∧
      2 + 2 * 8 - 14 ≤ (⟨5, 4⟩ : DeserializationBuffer).bit_length) ∧
     ((DynArray.deserialize ⟨2, 2, 8, [7, 9, 11]⟩ 14 ⟨5, 4⟩).1
        = .finished ((2 - (14 - 2) / 8) * 8) ∧
      (DynArray.deserialize ⟨2, 2, 8, [7, 9, 11]⟩ 14 ⟨5, 4⟩).2.1.current_length = 2 ∧
      (∀ j, j < (14 - 2) / 8 →
        (DynArray.deserialize ⟨2, 2, 8, [7, 9, 11]⟩ 14 ⟨5, 4⟩).2.1.elements.getD j 0
          = ([7, 9, 11] : List Nat).getD j 0) ∧
      (DynArray.deserialize ⟨2, 2, 8, [7, 9, 11]⟩ 14 ⟨5, 4⟩).2.1.elements.getD
          ((14 - 2) / 8) 0
        = setBits (([7, 9, 11] : List Nat).getD ((14 - 2) / 8) 0) ((14 - 2) % 8) 8
            (getBits (⟨5, 4⟩ : DeserializationBuffer).buffer 0 (8 - (14 - 2) % 8)) ∧
      (∀ j, (14 - 2) / 8 < j → j < 2 →
        (DynArray.deserialize ⟨2, 2, 8, [7, 9, 11]⟩ 14 ⟨5, 4⟩).2.1.elements.getD j 0
          = getBits (⟨5, 4⟩ : DeserializationBuffer).buffer
              ((j - (14 - 2) / 8) * 8 - (14 - 2) % 8)
              ((j - (14 - 2) / 8) * 8 - (14 - 2) % 8 + 8)) ∧
      (∀ j, 2 ≤ j →
        (DynArray.deserialize ⟨2, 2, 8, [7, 9, 11]⟩ 14 ⟨5, 4⟩).2.1.elements.getD j 0
          = ([7, 9, 11] : List Nat).getD j 0) ∧
      (DynArray.deserialize ⟨2, 2, 8, [7, 9, 11]⟩ 14 ⟨5, 4⟩).2.2.bit_length
        = (⟨5, 4⟩ : DeserializationBuffer).bit_length - (2 + 2 * 8 - 14))) :=
  ⟨⟨⟨by decide, by decide, by decide, by decide, by decide, by decide⟩,
    claim_C5.1 2 8 3 ⟨210606, 18⟩ (by decide) (by decide) (by decide) (by decide)
      (by decide) (by decide)⟩,
   ⟨⟨by decide, by decide, by decide, by decide, by decide, by decide⟩,
    claim_C5.2 2 2 8 [7, 9, 11] 14 ⟨5, 4⟩ (by decide) (by decide) (by decide)
      (by decide) (by decide) (by decide)⟩⟩

/-! ## The flattened-field deserializer driver

`Deserializer<T: UavcanStruct>` (src/uavcan/src/deserializer.rs).  The
`UavcanStruct` trait itself (`flattened_fields_len`, `field`, `bit_array`,
`length`) is declared outside the available source. -/

/-- Modelled from the spec: one bit array of a flattened field (the missing
`UavcanStruct` / `UavcanField` trait declarations).  Per spec §3 the flattened
view maps a structure onto an ordered sequence of primitive slots, each
reporting `bit_length()` (`len`) and storing its payload right-aligned
(`val`). -/
structure BitArraySlot where
  len : Nat
  val : Nat
deriving DecidableEq, Repr

/-- Modelled from the spec: the flattened view of a `UavcanStruct` value as
consumed by the driver — `fields.length` is `flattened_fields_len()`,
`(fields.getD i []).length` is `field(i).length()`, and
`(fields.getD i []).getD j ⟨0,0⟩` is `field(i).bit_array(j)`. -/
abbrev UavcanFields := List (List BitArraySlot)

/-- `Deserializer` state: the structure being populated, the two codec
indices, and the internal bit buffer. -/
structure DeserializerState where
  fields : UavcanFields
  current_field_index : Nat
  current_type_index : Nat
  buffer : DeserializationBuffer
deriving DecidableEq, Repr

/-- `DeserializerError`. -/
inductive DeserializerError where
  | StructureExhausted
  | NotFinished
deriving DecidableEq, Repr

/-- `Result<A, DeserializerError>` as returned by `Deserializer::deserialize`
and `Deserializer::into_structure`. -/
inductive DeserializerResult (α : Type) where
  | ok : α → DeserializerResult α
  | error : DeserializerError → DeserializerResult α
deriving DecidableEq, Repr

/-- Write `v` into the stored value of `field(i).bit_array(j)`
(`bit_array_as_mut(...).set_bits(0..field_length, ...)` writes the popped word
over the whole slot; the slot's width is untouched). -/
def setSlot (fields : UavcanFields) (i j : Nat) (v : Nat) : UavcanFields :=
  fields.set i
    ((fields.getD i []).set j ⟨((fields.getD i []).getD j ⟨0, 0⟩).len, v⟩)

/-- One non-exiting iteration of the inner `loop` of
`Deserializer::deserialize`: `some` of the next state if the iteration fills
the current bit array from the buffer (advancing `current_type_index`) or
moves on to the next field (resetting `current_type_index`); `none` if the
loop would `break` (bit array longer than the buffered bits) or `return`
(structure exhausted). -/
def loopStepFn (s : DeserializerState) : Option DeserializerState :=
  if s.current_field_index < s.fields.length then
    if s.current_type_index < (s.fields.getD s.current_field_index []).length then
      if ((s.fields.getD s.current_field_index []).getD s.current_type_index ⟨0, 0⟩).len
          ≤ s.buffer.bit_length then
        some { s with
          fields := setSlot s.fields s.current_field_index s.current_type_index
            (setBits
              ((s.fields.getD s.current_field_index []).getD s.current_type_index ⟨0, 0⟩).val
              0
              ((s.fields.getD s.current_field_index []).getD s.current_type_index ⟨0, 0⟩).len
              (s.buffer.pop_bits
                ((s.fields.getD s.current_field_index []).getD s.current_type_index
                  ⟨0, 0⟩).len).1),
          current_type_index := s.current_type_index + 1,
          buffer := (s.buffer.pop_bits
            ((s.fields.getD s.current_field_index []).getD s.current_type_index
              ⟨0, 0⟩).len).2 }
      else none
    else
      some { s with
        current_type_index := 0
        current_field_index := s.current_field_index + 1 }
  else none

/-- How one run of the inner `loop` of `Deserializer::deserialize` ends:
`needMore s` for `break` (wait for the next chunk), `finished s` for
`return Ok(self)`, `exhausted` for `return Err(StructureExhausted)`. -/
inductive LoopResult where
  | needMore : DeserializerState → LoopResult
  | finished : DeserializerState → LoopResult
  | exhausted : LoopResult
deriving DecidableEq, Repr

/-- The inner `loop` of `Deserializer::deserialize`: iterate `loopStepFn`
until the loop either breaks (`needMore`) or returns (`finished` /
`exhausted`, exactly when all flattened fields are populated, depending on
whether 8 or more bits remain buffered).  `fuel` bounds the iteration count;
`totalLoopFuel` below always suffices. -/
def deserializeLoop : Nat → DeserializerState → LoopResult
  | 0, s => .needMore s
  | fuel + 1, s =>
    match loopStepFn s with
    | some t => deserializeLoop fuel t
    | none =>
      if s.current_field_index < s.fields.length then .needMore s
      else if 8 ≤ s.buffer.bit_length then .exhausted
      else .finished s

/-- Per-field loop weights: processing field `i` takes `length + 1`
iterations (one per bit array plus the advance step). -/
def fieldWeights (fields : UavcanFields) : List Nat :=
  fields.map (fun f => f.length + 1)

/-- Iterations the inner loop can still perform from state `s`. -/
def loopMeasure (s : DeserializerState) : Nat :=
  ((fieldWeights s.fields).drop s.current_field_index).sum + 1
    - min s.current_type_index ((s.fields.getD s.current_field_index []).length)

/-- Iteration bound valid for every well-formed state over the same
structure shape. -/
def totalLoopFuel (s : DeserializerState) : Nat :=
  (fieldWeights s.fields).sum + 2

/-- `input.chunks(8)`: split the input into chunks of at most 8 bytes (the
iteration count is bounded by the list length, as every chunk removes at
least one byte). -/
def chunks8Fuel : Nat → List Nat → List (List Nat)
  | _, [] => []
  | 0, l => [l]
  | fuel + 1, l => l.take 8 :: chunks8Fuel fuel (l.drop 8)

def chunks8 (l : List Nat) : List (List Nat) := chunks8Fuel l.length l

/-- `self.buffer.push(chunk)`. -/
def DeserializerState.pushChunk (s : DeserializerState) (chunk : List Nat) :
    DeserializerState :=
  { s with buffer := s.buffer.push chunk }

/-- The `for chunk in input.chunks(8)` loop of `Deserializer::deserialize`:
push each chunk, run the inner loop; a `break` continues with the next chunk,
a `return` ends the call; after the last chunk, `Ok(self)`. -/
def deserializeChunks : DeserializerState → List (List Nat) →
    DeserializerResult DeserializerState
  | s, [] => .ok s
  | s, chunk :: rest =>
    match deserializeLoop (totalLoopFuel (s.pushChunk chunk)) (s.pushChunk chunk) with
    | .needMore t => deserializeChunks t rest
    | .finished t => .ok t
    | .exhausted => .error .StructureExhausted

/-- `Deserializer::deserialize`. -/
def Deserializer.deserialize (s : DeserializerState) (input : List Nat) :
    DeserializerResult DeserializerState :=
  deserializeChunks s (chunks8 input)

/-- `Deserializer::new`: a zeroed structure (`mem::zeroed()`), both indices 0,
fresh buffer.  `shape` lists each flattened field's bit-array widths. -/
def Deserializer.new (shape : List (List Nat)) : DeserializerState :=
  ⟨shape.map (fun f => f.map (fun len => ⟨len, 0⟩)), 0, 0, DeserializationBuffer.new⟩

/-- `Deserializer::into_structure`: `Ok` iff parsing consumed every flattened
field. -/
def Deserializer.into_structure (s : DeserializerState) :
    DeserializerResult UavcanFields :=
  if s.fields.length = s.current_field_index then .ok s.fields
  else .error .NotFinished

/-- Well-formedness of a driver state: the field index is within bounds and
the type index does not exceed the current field's bit-array count.  It holds
for `Deserializer::new` and is preserved by the driver. -/
def stateInv (s : DeserializerState) : Prop :=
  s.current_field_index ≤ s.fields.length ∧
  (s.current_field_index < s.fields.length →
    s.current_type_index ≤ (s.fields.getD s.current_field_index []).length)

instance (s : DeserializerState) : Decidable (stateInv s) := by
  unfold stateInv
  infer_instance

/-- Codec-state order: the pair `(current_field_index, current_type_index)`
advances lexicographically. -/
def stateLE (s t : DeserializerState) : Prop :=
  s.current_field_index < t.current_field_index ∨
  (s.current_field_index = t.current_field_index ∧
   s.current_type_index ≤ t.current_type_index)

theorem stateLE_refl (s : DeserializerState) : stateLE s s := Or.inr ⟨rfl, Nat.le_refl _⟩

theorem stateLE_trans {s t u : DeserializerState} (h1 : stateLE s t) (h2 : stateLE t u) :
    stateLE s u := by
  rcases h1 with h1 | ⟨h1, h1'⟩ <;> rcases h2 with h2 | ⟨h2, h2'⟩
  · exact Or.inl (by omega)
  · exact Or.inl (by omega)
  · exact Or.inl (by omega)
  · exact Or.inr ⟨by omega, by omega⟩

theorem getD_of_lt {α : Type} (l : List α) (i : Nat) (d : α) (h : i < l.length) :
    l.getD i d = l[i] := by
  simp [List.getD_eq_getElem?_getD, List.getElem?_eq_getElem h]

theorem set_getElem_self {α : Type} (l : List α) (i : Nat) (h : i < l.length) :
    l.set i l[i] = l := by
  apply List.ext_getElem?
  intro n
  rw [List.getElem?_set]
  by_cases hin : i = n
  · subst hin
    rw [if_pos rfl, if_pos h, List.getElem?_eq_getElem h]
  · rw [if_neg hin]

theorem fieldWeights_length (fields : UavcanFields) :
    (fieldWeights fields).length = fields.length := by
  simp [fieldWeights]

theorem fieldWeights_setSlot (fields : UavcanFields) (i j v : Nat) :
    fieldWeights (setSlot fields i j v) = fieldWeights fields := by
  unfold fieldWeights setSlot
  rw [List.map_set]
  by_cases hlen : i < fields.length
  · have hlen' : i < (fields.map (fun f => f.length + 1)).length := by simpa using hlen
    have hv : ((fields.getD i []).set j ⟨((fields.getD i []).getD j ⟨0, 0⟩).len, v⟩).length + 1
        = (fields.map (fun f => f.length + 1))[i] := by
      rw [List.getElem_map, List.length_set, getD_of_lt _ _ _ hlen]
    rw [hv, set_getElem_self _ _ hlen']
  · rw [List.set_eq_of_length_le (by simpa using (by omega : fields.length ≤ i))]

theorem length_of_fieldWeights_eq {f1 f2 : UavcanFields}
    (h : fieldWeights f1 = fieldWeights f2) : f1.length = f2.length := by
  have h2 := congrArg List.length h
  simpa [fieldWeights] using h2

theorem getD_length_of_fieldWeights_eq {f1 f2 : UavcanFields}
    (h : fieldWeights f1 = fieldWeights f2) (k : Nat) :
    (f1.getD k []).length = (f2.getD k []).length := by
  have h1 := List.getD_map f1 ([] : List BitArraySlot) (n := k) (fun f => f.length + 1)
  have h2 := List.getD_map f2 ([] : List BitArraySlot) (n := k) (fun f => f.length + 1)
  unfold fieldWeights at h
  rw [h] at h1
  omega

theorem sum_drop_le (l : List Nat) (k : Nat) : (l.drop k).sum ≤ l.sum := by
  conv_rhs => rw [← List.take_append_drop k l]
  rw [List.sum_append]
  omega

theorem weights_drop_head (fields : UavcanFields) (i : Nat) (h : i < fields.length) :
    ((fieldWeights fields).drop i).sum
      = (fields.getD i []).length + 1 + ((fieldWeights fields).drop (i + 1)).sum := by
  have hlt : i < (fieldWeights fields).length := by rwa [fieldWeights_length]
  rw [List.drop_eq_getElem_cons hlt, List.sum_cons]
  have hv : (fieldWeights fields)[i] = (fields.getD i []).length + 1 := by
    unfold fieldWeights
    rw [List.getElem_map, getD_of_lt _ _ _ h]
  omega

theorem loopMeasure_pos (s : DeserializerState) : 1 ≤ loopMeasure s := by
  unfold loopMeasure
  by_cases h : s.current_field_index < s.fields.length
  · have hh := weights_drop_head s.fields s.current_field_index h
    have hm : min s.current_type_index ((s.fields.getD s.current_field_index []).length)
        ≤ (s.fields.getD s.current_field_index []).length := Nat.min_le_right _ _
    omega
  · have hd : (fieldWeights s.fields).drop s.current_field_index = [] :=
      List.drop_eq_nil_of_le (by rw [fieldWeights_length]; omega)
    have hg : s.fields.getD s.current_field_index [] = [] :=
      List.getD_eq_default _ _ (by omega)
    rw [hd, hg]
    simp

theorem loopMeasure_lt_fuel (s : DeserializerState) : loopMeasure s < totalLoopFuel s := by
  unfold loopMeasure totalLoopFuel
  have h := sum_drop_le (fieldWeights s.fields) s.current_field_index
  omega

/-- `loopStepFn` case analysis: a step either fills the current bit array
(type index advances) or moves to the next field (type index resets). -/
theorem loopStepFn_cases {s t : DeserializerState} (h : loopStepFn s = some t) :
    s.current_field_index < s.fields.length ∧
    fieldWeights t.fields = fieldWeights s.fields ∧
    ((t.current_field_index = s.current_field_index ∧
      t.current_type_index = s.current_type_index + 1 ∧
      s.current_type_index < (s.fields.getD s.current_field_index []).length) ∨
     (t.current_field_index = s.current_field_index + 1 ∧
      t.current_type_index = 0 ∧ t.fields = s.fields ∧
      (s.fields.getD s.current_field_index []).length ≤ s.current_type_index)) := by
  unfold loopStepFn at h
  by_cases h1 : s.current_field_index < s.fields.length
  · rw [if_pos h1] at h
    by_cases h2 : s.current_type_index < (s.fields.getD s.current_field_index []).length
    · rw [if_pos h2] at h
      by_cases h3 : ((s.fields.getD s.current_field_index []).getD s.current_type_index
          ⟨0, 0⟩).len ≤ s.buffer.bit_length
      · rw [if_pos h3] at h
        injection h with h
        subst h
        exact ⟨h1, fieldWeights_setSlot _ _ _ _, Or.inl ⟨rfl, rfl, h2⟩⟩
      · rw [if_neg h3] at h
        cases h
    · rw [if_neg h2] at h
      injection h with h
      subst h
      exact ⟨h1, rfl, Or.inr ⟨rfl, rfl, rfl, by omega⟩⟩
  · rw [if_neg h1] at h
    cases h

/-- A step preserves the invariant and strictly decreases the loop measure. -/
theorem loopStepFn_progress {s t : DeserializerState} (h : loopStepFn s = some t)
    (hinv : stateInv s) : stateInv t ∧ loopMeasure t < loopMeasure s ∧ stateLE s t := by
  obtain ⟨h1, hw, hcase⟩ := loopStepFn_cases h
  have hlen : t.fields.length = s.fields.length := length_of_fieldWeights_eq hw
  rcases hcase with ⟨hcf, hct, hlt⟩ | ⟨hcf, hct, hfe, hge⟩
  · have hgl : (t.fields.getD s.current_field_index []).length
        = (s.fields.getD s.current_field_index []).length :=
      getD_length_of_fieldWeights_eq hw _
    have hinv2 : stateInv t := by
      constructor
      · omega
      · intro _
        rw [hcf, hct]
        omega
    refine ⟨hinv2, ?_, Or.inr ⟨hcf.symm, by omega⟩⟩
    unfold loopMeasure
    rw [hw, hcf, hct, hgl]
    have hh := weights_drop_head s.fields s.current_field_index h1
    have hm1 : min s.current_type_index ((s.fields.getD s.current_field_index []).length)
        = s.current_type_index := Nat.min_eq_left (by omega)
    have hm2 : min (s.current_type_index + 1)
        ((s.fields.getD s.current_field_index []).length)
        = s.current_type_index + 1 := Nat.min_eq_left (by omega)
    omega
  · have hcti : s.current_type_index = (s.fields.getD s.current_field_index []).length := by
      have := hinv.2 h1
      omega
    have hinv2 : stateInv t := by
      constructor
      · rw [hfe, hcf]
        omega
      · intro _
        rw [hct]
        omega
    refine ⟨hinv2, ?_, Or.inl (by omega)⟩
    unfold loopMeasure
    rw [hw, hcf, hct, hfe]
    have hh := weights_drop_head s.fields s.current_field_index h1
    have hm1 : min s.current_type_index ((s.fields.getD s.current_field_index []).length)
        = s.current_type_index := Nat.min_eq_left (by omega)
    have hm2 : min 0 ((s.fields.getD (s.current_field_index + 1) []).length) = 0 :=
      Nat.min_eq_left (by omega)
    omega

/-- Zero or more inner-loop iterations. -/
inductive LoopReaches : DeserializerState → DeserializerState → Prop where
  | refl (s : DeserializerState) : LoopReaches s s
  | tail {s t u : DeserializerState} :
      LoopReaches s t → loopStepFn t = some u → LoopReaches s u

theorem loopReaches_cons {s t u : DeserializerState} (hstep : loopStepFn s = some t)
    (h : LoopReaches t u) : LoopReaches s u := by
  induction h with
  | refl => exact LoopReaches.tail (LoopReaches.refl s) hstep
  | tail h1 h2 ih => exact LoopReaches.tail ih h2

theorem loopReaches_of_none {s u : DeserializerState} (hnone : loopStepFn s = none)
    (h : LoopReaches s u) : u = s := by
  induction h with
  | refl => rfl
  | tail h1 h2 ih =>
    rw [ih] at h2
    rw [hnone] at h2
    cases h2

theorem loopReaches_head {s t u : DeserializerState} (hstep : loopStepFn s = some t)
    (h : LoopReaches s u) : u = s ∨ LoopReaches t u := by
  induction h with
  | refl => exact Or.inl rfl
  | tail h1 h2 ih =>
    rcases ih with h | h
    · rw [h] at h2
      rw [hstep] at h2
      injection h2 with h2
      exact Or.inr (h2 ▸ LoopReaches.refl t)
    · exact Or.inr (LoopReaches.tail h h2)

/-- The driver states inspected at the top of the inner loop while
`Deserializer::deserialize` processes a list of chunks: after a chunk is
pushed, every state the inner loop passes through; when the loop breaks,
processing continues with the next chunk. -/
inductive Visits : DeserializerState → List (List Nat) → DeserializerState → Prop where
  | here {s : DeserializerState} {c : List Nat} {rest : List (List Nat)}
      {t : DeserializerState} :
      LoopReaches (s.pushChunk c) t → Visits s (c :: rest) t
  | later {s : DeserializerState} {c : List Nat} {rest : List (List Nat)}
      {b t : DeserializerState} :
      deserializeLoop (totalLoopFuel (s.pushChunk c)) (s.pushChunk c) = .needMore b →
      Visits b rest t → Visits s (c :: rest) t

/-- Full characterization of one inner-loop run (given enough fuel): it ends
in `exhausted` exactly when some loop-reachable state has all flattened
fields populated with at least 8 buffered bits left; `needMore` and
`finished` identify the stuck state reached. -/
theorem deserializeLoop_spec :
    ∀ (fuel : Nat) (s : DeserializerState), stateInv s → loopMeasure s ≤ fuel →
      (deserializeLoop fuel s = .exhausted ↔
        ∃ t, LoopReaches s t ∧ t.fields.length ≤ t.current_field_index ∧
          8 ≤ t.buffer.bit_length) ∧
      (∀ t, deserializeLoop fuel s = .needMore t →
        LoopReaches s t ∧ loopStepFn t = none ∧
        t.current_field_index < t.fields.length ∧ stateInv t ∧
        fieldWeights t.fields = fieldWeights s.fields ∧ stateLE s t) ∧
      (∀ t, deserializeLoop fuel s = .finished t →
        LoopReaches s t ∧ t.fields.length ≤ t.current_field_index ∧
        t.buffer.bit_length < 8 ∧ stateInv t ∧
        fieldWeights t.fields = fieldWeights s.fields ∧ stateLE s t) := by
  intro fuel
  induction fuel with
  | zero =>
    intro s hinv hm
    exact absurd hm (by have := loopMeasure_pos s; omega)
  | succ fuel ih =>
    intro s hinv hm
    cases hstep : loopStepFn s with
    | some t =>
      obtain ⟨hinvt, hmt, hle⟩ := loopStepFn_progress hstep hinv
      have hcfi := (loopStepFn_cases hstep).1
      have hwts := (loopStepFn_cases hstep).2.1
      have hunfold : deserializeLoop (fuel + 1) s = deserializeLoop fuel t := by
        show (match loopStepFn s with
          | some t => deserializeLoop fuel t
          | none =>
            if s.current_field_index < s.fields.length then LoopResult.needMore s
            else if 8 ≤ s.buffer.bit_length then LoopResult.exhausted
            else LoopResult.finished s)
          = deserializeLoop fuel t
        rw [hstep]
      obtain ⟨ih1, ih2, ih3⟩ := ih t hinvt (by omega)
      refine ⟨?_, ?_, ?_⟩
      · rw [hunfold, ih1]
        constructor
        · rintro ⟨u, hr, hc, h8⟩
          exact ⟨u, loopReaches_cons hstep hr, hc, h8⟩
        · rintro ⟨u, hr, hc, h8⟩
          rcases loopReaches_head hstep hr with he | hr2
          · rw [he] at hc
            exact absurd hc (by omega)
          · exact ⟨u, hr2, hc, h8⟩
      · intro u hu
        rw [hunfold] at hu
        obtain ⟨hr, hnone, hlt, hinvu, hwu, hleu⟩ := ih2 u hu
        exact ⟨loopReaches_cons hstep hr, hnone, hlt, hinvu, by rw [hwu, hwts],
          stateLE_trans hle hleu⟩
      · intro u hu
        rw [hunfold] at hu
        obtain ⟨hr, hc, h8, hinvu, hwu, hleu⟩ := ih3 u hu
        exact ⟨loopReaches_cons hstep hr, hc, h8, hinvu, by rw [hwu, hwts],
          stateLE_trans hle hleu⟩
    | none =>
      have hunfold : deserializeLoop (fuel + 1) s
          = if s.current_field_index < s.fields.length then LoopResult.needMore s
            else if 8 ≤ s.buffer.bit_length then LoopResult.exhausted
            else LoopResult.finished s := by
        show (match loopStepFn s with
          | some t => deserializeLoop fuel t
          | none =>
            if s.current_field_index < s.fields.length then LoopResult.needMore s
            else if 8 ≤ s.buffer.bit_length then LoopResult.exhausted
            else LoopResult.finished s)
          = _
        rw [hstep]
      by_cases h1 : s.current_field_index < s.fields.length
      · rw [if_pos h1] at hunfold
        refine ⟨?_, ?_, ?_⟩
        · rw [hunfold]
          constructor
          · intro hcon
            cases hcon
          · rintro ⟨u, hr, hc, h8⟩
            have hus := loopReaches_of_none hstep hr
            rw [hus] at hc
            exact absurd hc (by omega)
        · intro u hu
          rw [hunfold] at hu
          injection hu with hu
          subst hu
          exact ⟨LoopReaches.refl s, hstep, h1, hinv, rfl, stateLE_refl s⟩
        · intro u hu
          rw [hunfold] at hu
          cases hu
      · rw [if_neg h1] at hunfold
        by_cases h8 : 8 ≤ s.buffer.bit_length
        · rw [if_pos h8] at hunfold
          refine ⟨?_, ?_, ?_⟩
          · rw [hunfold]
            constructor
            · intro _
              exact ⟨s, LoopReaches.refl s, by omega, h8⟩
            · intro _
              rfl
          · intro u hu
            rw [hunfold] at hu
            cases hu
          · intro u hu
            rw [hunfold] at hu
            cases hu
        · rw [if_neg h8] at hunfold
          refine ⟨?_, ?_, ?_⟩
          · rw [hunfold]
            constructor
            · intro hcon
              cases hcon
            · rintro ⟨u, hr, hc, h8u⟩
              have hus := loopReaches_of_none hstep hr
              rw [hus] at h8u
              exact absurd h8u (by omega)
          · intro u hu
            rw [hunfold] at hu
            cases hu
          · intro u hu
            rw [hunfold] at hu
            injection hu with hu
            subst hu
            exact ⟨LoopReaches.refl s, by omega, by omega, hinv, rfl, stateLE_refl s⟩

/-- Characterization of the chunk loop: `StructureExhausted` exactly when a
visited state has every flattened field populated while 8 or more bits remain
buffered; an `Ok` result advances the codec indices monotonically within
bounds. -/
theorem deserializeChunks_spec :
    ∀ (chunks : List (List Nat)) (s : DeserializerState), stateInv s →
      (deserializeChunks s chunks = .error .StructureExhausted ↔
        ∃ t, Visits s chunks t ∧ t.fields.length ≤ t.current_field_index ∧
          8 ≤ t.buffer.bit_length) ∧
      (∀ t, deserializeChunks s chunks = .ok t →
        stateLE s t ∧ t.current_field_index ≤ t.fields.length ∧ stateInv t) ∧
      (∀ e, deserializeChunks s chunks = .error e → e = .StructureExhausted) := by
  intro chunks
  induction chunks with
  | nil =>
    intro s hinv
    refine ⟨?_, ?_, ?_⟩
    · constructor
      · intro h
        cases h
      · rintro ⟨t, hv, _, _⟩
        cases hv
    · intro t ht
      injection ht with ht
      subst ht
      exact ⟨stateLE_refl s, hinv.1, hinv⟩
    · intro e he
      cases he
  | cons c rest ihc =>
    intro s hinv
    have hinv' : stateInv (s.pushChunk c) := hinv
    have hfuel : loopMeasure (s.pushChunk c) ≤ totalLoopFuel (s.pushChunk c) :=
      Nat.le_of_lt (loopMeasure_lt_fuel _)
    obtain ⟨spec1, spec2, spec3⟩ :=
      deserializeLoop_spec (totalLoopFuel (s.pushChunk c)) (s.pushChunk c) hinv' hfuel
    have hunfold : deserializeChunks s (c :: rest)
        = match deserializeLoop (totalLoopFuel (s.pushChunk c)) (s.pushChunk c) with
          | .needMore t => deserializeChunks t rest
          | .finished t => .ok t
          | .exhausted => .error .StructureExhausted := rfl
    cases hres : deserializeLoop (totalLoopFuel (s.pushChunk c)) (s.pushChunk c) with
    | needMore b =>
      have heq : deserializeChunks s (c :: rest) = deserializeChunks b rest := by
        rw [hunfold, hres]
      obtain ⟨hr, hnone, hlt, hinvb, hw, hle⟩ := spec2 b hres
      obtain ⟨ih1, ih2, ih3⟩ := ihc b hinvb
      refine ⟨?_, ?_, ?_⟩
      · rw [heq, ih1]
        constructor
        · rintro ⟨t, hv, hc, h8⟩
          exact ⟨t, Visits.later hres hv, hc, h8⟩
        · rintro ⟨t, hv, hc, h8⟩
          cases hv with
          | here hreach =>
            have hex := spec1.mpr ⟨t, hreach, hc, h8⟩
            rw [hres] at hex
            cases hex
          | later hload hvis =>
            rw [hres] at hload
            injection hload with hload
            rw [← hload] at hvis
            exact ⟨t, hvis, hc, h8⟩
      · intro t ht
        rw [heq] at ht
        obtain ⟨hlet, hboundt, hinvt⟩ := ih2 t ht
        exact ⟨stateLE_trans hle hlet, hboundt, hinvt⟩
      · intro e he
        rw [heq] at he
        exact ih3 e he
    | finished t0 =>
      have heq : deserializeChunks s (c :: rest) = .ok t0 := by
        rw [hunfold, hres]
      obtain ⟨hr, hcomp, h8, hinvt, hw, hle⟩ := spec3 t0 hres
      refine ⟨?_, ?_, ?_⟩
      · rw [heq]
        constructor
        · intro h
          cases h
        · rintro ⟨t, hv, hc, h8t⟩
          cases hv with
          | here hreach =>
            have hex := spec1.mpr ⟨t, hreach, hc, h8t⟩
            rw [hres] at hex
            cases hex
          | later hload hvis =>
            rw [hres] at hload
            cases hload
      · intro t ht
        rw [heq] at ht
        injection ht with ht
        subst ht
        exact ⟨hle, hinvt.1, hinvt⟩
      · intro e he
        rw [heq] at he
        cases he
    | exhausted =>
      have heq : deserializeChunks s (c :: rest) = .error .StructureExhausted := by
        rw [hunfold, hres]
      refine ⟨?_, ?_, ?_⟩
      · rw [heq]
        constructor
        · intro _
          obtain ⟨t, hreach, hc, h8⟩ := spec1.mp hres
          exact ⟨t, Visits.here hreach, hc, h8⟩
        · intro _
          rfl
      · intro t ht
        rw [heq] at ht
        cases ht
      · intro e he
        rw [heq] at he
        injection he with he
        rw [he]

/-- C1: for the NodeStatus structure `{uptime_sec: u32, health: u2, mode: u3,
sub_mode: u3, vendor_code: u16}`, deserializing the 7 bytes
`[1, 0, 0, 0, 0x8E, 5, 0]` with `Deserializer::deserialize` followed by
`into_structure` succeeds and yields uptime_sec = 1, health = 2, mode = 3,
sub_mode = 4, vendor_code = 5: the misaligned fields health, mode, sub_mode
are unpacked LSB-first from the single byte
`(2) ||| (3 <<< 2) ||| (4 <<< 5) = 0x8E`. -/
theorem claim_C1 :
    Deserializer.deserialize (Deserializer.new [[32], [2], [3], [3], [16]])
        [1, 0, 0, 0, 0x8E, 5, 0]
      = .ok ⟨[[⟨32, 1⟩], [⟨2, 2⟩], [⟨3, 3⟩], [⟨3, 4⟩], [⟨16, 5⟩]], 5, 0,
          ⟨6107443494917, 0⟩⟩ ∧
    Deserializer.into_structure
        ⟨[[⟨32, 1⟩], [⟨2, 2⟩], [⟨3, 3⟩], [⟨3, 4⟩], [⟨16, 5⟩]], 5, 0,
          ⟨6107443494917, 0⟩⟩
      = .ok [[⟨32, 1⟩], [⟨2, 2⟩], [⟨3, 3⟩], [⟨3, 4⟩], [⟨16, 5⟩]] ∧
    (2 : Nat) ||| 3 <<< 2 ||| 4 <<< 5 = 0x8E :=
  ⟨by decide, by decide, by decide⟩

/-- C6: for every structure and every input byte slice,
`Deserializer::deserialize` returns `Err(StructureExhausted)` if and only if
at some point during processing — a state inspected at the top of the inner
loop — all flattened fields of the structure are fully populated while the
internal bit buffer still holds 8 or more bits; otherwise it returns `Ok`
(every error it ever returns is `StructureExhausted`). -/
theorem claim_C6 (s : DeserializerState) (input : List Nat) (hinv : stateInv s) :
    (Deserializer.deserialize s input = .error .StructureExhausted ↔
      ∃ t, Visits s (chunks8 input) t ∧ t.fields.length ≤ t.current_field_index ∧
        8 ≤ t.buffer.bit_length) ∧
    (∀ e, Deserializer.deserialize s input = .error e → e = .StructureExhausted) :=
  ⟨(deserializeChunks_spec (chunks8 input) s hinv).1,
   (deserializeChunks_spec (chunks8 input) s hinv).2.2⟩

/-- Witness for C6: a one-byte structure fed 2 bytes — the second byte is
left in the buffer when the structure completes, so the run errors. -/
theorem claim_C6_witness :
    stateInv (Deserializer.new [[8]]) ∧
    ((Deserializer.deserialize (Deserializer.new [[8]]) [7, 9]
        = .error .StructureExhausted ↔
      ∃ t, Visits (Deserializer.new [[8]]) (chunks8 [7, 9]) t ∧
        t.fields.length ≤ t.current_field_index ∧ 8 ≤ t.buffer.bit_length) ∧
     (∀ e, Deserializer.deserialize (Deserializer.new [[8]]) [7, 9] = .error e →
       e = .StructureExhausted)) :=
  ⟨by decide, claim_C6 (Deserializer.new [[8]]) [7, 9] (by decide)⟩

/-- C9: the codec state starts at zero and advances monotonically: a fresh
`Deserializer` has both `current_field_index` and `current_type_index` zero;
each inner-loop iteration either keeps the field index and increments the
type index, or advances the field index and resets the type index to 0; and
across any (sequence of) `deserialize` calls the field index never decreases,
never exceeds `flattened_fields_len()`, and the type index never decreases
while the field index stands still (the preserved invariant `stateInv` makes
the per-call statement compose across call sequences). -/
theorem claim_C9 :
    (∀ shape, (Deserializer.new shape).current_field_index = 0 ∧
      (Deserializer.new shape).current_type_index = 0) ∧
    (∀ s t, loopStepFn s = some t →
      (t.current_field_index = s.current_field_index ∧
       t.current_type_index = s.current_type_index + 1) ∨
      (t.current_field_index = s.current_field_index + 1 ∧
       t.current_type_index = 0)) ∧
    (∀ s input t, stateInv s → Deserializer.deserialize s input = .ok t →
      s.current_field_index ≤ t.current_field_index ∧
      t.current_field_index ≤ t.fields.length ∧
      (t.current_field_index = s.current_field_index →
        s.current_type_index ≤ t.current_type_index) ∧
      stateInv t) := by
  refine ⟨fun shape => ⟨rfl, rfl⟩, ?_, ?_⟩
  · intro s t h
    rcases (loopStepFn_cases h).2.2 with ⟨h1, h2, _⟩ | ⟨h1, h2, _, _⟩
    · exact Or.inl ⟨h1, h2⟩
    · exact Or.inr ⟨h1, h2⟩
  · intro s input t hinv hok
    obtain ⟨hle, hbound, hinvt⟩ :=
      (deserializeChunks_spec (chunks8 input) s hinv).2.1 t hok
    refine ⟨?_, hbound, ?_, hinvt⟩
    · rcases hle with h | ⟨h, _⟩ <;> omega
    · intro hcfi
      rcases hle with h | ⟨h, h2⟩
      · omega
      · exact h2

/-- Witness for C9: a one-byte structure consumed from one byte of input. -/
theorem claim_C9_witness :
    stateInv (Deserializer.new [[8]]) ∧
    Deserializer.deserialize (Deserializer.new [[8]]) [7]
      = .ok ⟨[[⟨8, 7⟩]], 1, 0, ⟨7, 0⟩⟩ ∧
    ((Deserializer.new [[8]]).current_field_index
        ≤ (⟨[[⟨8, 7⟩]], 1, 0, ⟨7, 0⟩⟩ : DeserializerState).current_field_index ∧
     (⟨[[⟨8, 7⟩]], 1, 0, ⟨7, 0⟩⟩ : DeserializerState).current_field_index
        ≤ (⟨[[⟨8, 7⟩]], 1, 0, ⟨7, 0⟩⟩ : DeserializerState).fields.length ∧
     ((⟨[[⟨8, 7⟩]], 1, 0, ⟨7, 0⟩⟩ : DeserializerState).current_field_index
          = (Deserializer.new [[8]]).current_field_index →
       (Deserializer.new [[8]]).current_type_index
          ≤ (⟨[[⟨8, 7⟩]], 1, 0, ⟨7, 0⟩⟩ : DeserializerState).current_type_index) ∧
     stateInv ⟨[[⟨8, 7⟩]], 1, 0, ⟨7, 0⟩⟩) :=
  ⟨by decide, by decide,
   claim_C9.2.2 (Deserializer.new [[8]]) [7] ⟨[[⟨8, 7⟩]], 1, 0, ⟨7, 0⟩⟩
     (by decide) (by decide)⟩

end Uavcan
